import Mathlib

/-!
Verification of the systrument trace pipeline: a shallow embedding of the
strace line scanner, the lazy value parser, the timestamp reorder window,
the process-state analyzer and the two event sinks, together with theorems
settling the specification claims.

Strings from the Rust source (`&str`) are embedded as `List Char`; byte
strings (`bstr::BString`) as `List Nat` with each element below 256.
Machine integers are embedded as `Int` with the source's range checks made
explicit at the parsing boundaries (`i32`/`i64`/`u8` parsing).  Source
locations (`blame_on::Blame` spans) only feed diagnostics, so errors are
embedded as plain messages.
-/

namespace Systrument

abbrev Chars := List Char
abbrev Bytes := List Nat
abbrev Pid := Int

/-- Diagnostic for a failed scan or value parse (`StraceParseError` in
`src/strace/parser.rs`); the labelled source span only feeds diagnostics and
is dropped in the embedding. -/
structure StraceParseError where
  message : String
deriving DecidableEq

/-- Rust `str::strip_prefix`: remove `pat` from the front of `s`. -/
def stripPre (pat s : Chars) : Option Chars :=
  match pat, s with
  | [], s => some s
  | _ :: _, [] => none
  | p :: ps, c :: cs => if c = p then stripPre ps cs else none

/-- Rust `str::strip_suffix`: remove `pat` from the end of `s`. -/
def stripSuf (pat s : Chars) : Option Chars :=
  (stripPre pat.reverse s.reverse).map List.reverse

/-- Rust `str::split_once`: split at the first occurrence of `pat`,
returning the parts before and after it. -/
def firstSplit (pat : Chars) : Chars → Option (Chars × Chars)
  | [] =>
    match stripPre pat [] with
    | some r => some ([], r)
    | none => none
  | c :: cs =>
    match stripPre pat (c :: cs) with
    | some r => some ([], r)
    | none => (firstSplit pat cs).map (fun p => (c :: p.1, p.2))

/-- Rust `str::rsplit_once`: split at the last occurrence of `pat`. -/
def rsplitOnce (pat s : Chars) : Option (Chars × Chars) :=
  (firstSplit pat.reverse s.reverse).map (fun p => (p.2.reverse, p.1.reverse))

/-- ASCII whitespace, as used by `str::trim_ascii_end`; the source also
calls the Unicode `str::trim_start`, which coincides with this on every
character the scanner can meet in an strace line. -/
def isWs (c : Char) : Bool :=
  c = ' ' ∨ c = '\t' ∨ c = '\n' ∨ c = '\r' ∨ c.toNat = 12

def trimStart (s : Chars) : Chars := s.dropWhile isWs

def trimEnd (s : Chars) : Chars := (s.reverse.dropWhile isWs).reverse

def trim (s : Chars) : Chars := trimEnd (trimStart s)

def isDecDigit (c : Char) : Bool := '0' ≤ c ∧ c ≤ '9'

def isOctDigit (c : Char) : Bool := '0' ≤ c ∧ c ≤ '7'

def isHexDigit (c : Char) : Bool :=
  isDecDigit c ∨ ('a' ≤ c ∧ c ≤ 'f') ∨ ('A' ≤ c ∧ c ≤ 'F')

def decVal (c : Char) : Nat := c.toNat - '0'.toNat

def hexVal (c : Char) : Nat :=
  if isDecDigit c then decVal c
  else if 'a' ≤ c ∧ c ≤ 'f' then c.toNat - 'a'.toNat + 10
  else c.toNat - 'A'.toNat + 10

/-- Value of a string of decimal digits (the caller checks digit-ness). -/
def digitsVal (s : Chars) : Nat := s.foldl (fun acc c => acc * 10 + decVal c) 0

/-- Value of a string of octal digits. -/
def octVal (s : Chars) : Nat := s.foldl (fun acc c => acc * 8 + decVal c) 0

/-- Value of a string of hex digits. -/
def hexsVal (s : Chars) : Nat := s.foldl (fun acc c => acc * 16 + hexVal c) 0

/-- Rust signed-integer `FromStr` (`i32`/`i64` via the bounds): an optional
sign, one or more decimal digits, and a range check. -/
def parseIntIn (lo hi : Int) (s : Chars) : Option Int :=
  let (sign, digits) :=
    match s with
    | '+' :: r => ((1 : Int), r)
    | '-' :: r => ((-1 : Int), r)
    | r => ((1 : Int), r)
  if digits ≠ [] ∧ digits.all isDecDigit then
    let v : Int := sign * Int.ofNat (digitsVal digits)
    if lo ≤ v ∧ v ≤ hi then some v else none
  else none

/-- Rust `str::parse::<i32>` (the `Pid` type and `Value::as_i32`). -/
def parseI32 (s : Chars) : Option Int := parseIntIn (-2147483648) 2147483647 s

/-- Rust `str::parse::<i64>` (the seconds part of `parse_duration`). -/
def parseI64 (s : Chars) : Option Int :=
  parseIntIn (-9223372036854775808) 9223372036854775807 s

/-- Rust `u8::from_str_radix`: optional sign (a `-` only for value zero),
one or more digits of the radix, value at most 255.  Used with radix 16 for
`\xHH` escapes and radix 8 for octal escapes. -/
def u8FromStrRadix (radix : Nat) (s : Chars) : Option Nat :=
  let isDigit : Char → Bool := if radix = 8 then isOctDigit else isHexDigit
  let val : Chars → Nat := if radix = 8 then octVal else hexsVal
  let signAndDigits : Bool × Chars :=
    if s.head? = some '+' then (false, s.tail)
    else if s.head? = some '-' then (true, s.tail)
    else (false, s)
  let neg := signAndDigits.1
  let digits := signAndDigits.2
  if digits ≠ [] ∧ digits.all isDigit then
    let v := val digits
    if neg then (if v = 0 then some 0 else none)
    else if v ≤ 255 then some v else none
  else none

/-- The `\xHH` arm of `parse_string_escape_sequence` (parser.rs lines
616-624): exactly two characters after the `x`, decoded in radix 16. -/
def escHex (rest : Chars) : Except StraceParseError (Nat × Chars) :=
  match rest with
  | h1 :: h2 :: rest2 =>
    match u8FromStrRadix 16 [h1, h2] with
    | some b => .ok (b, rest2)
    | none => .error ⟨"invalid hex escape in string"⟩
  | _ => .error ⟨"unexpected end of string"⟩

/-- The octal arm of `parse_string_escape_sequence` (parser.rs lines
625-638): the greedy run of octal digits capped at three, decoded in
radix 8 (failing above 255), leaving the rest literal. -/
def escOct (c : Char) (rest : Chars) : Except StraceParseError (Nat × Chars) :=
  let ds := ((c :: rest).take 3).takeWhile isOctDigit
  match u8FromStrRadix 8 ds with
  | some b => .ok (b, (c :: rest).drop ds.length)
  | none => .error ⟨"invalid octal escape in string"⟩

/-- String escape sequences of the strace format, `parse_string_escape_sequence`
in `src/strace/parser.rs` (lines 594-646).  The input starts right after the
backslash; the result is the decoded byte and the unconsumed remainder.
The source indexes bytes of the UTF-8 text; that differs from this per-char
embedding only in which diagnostic a multi-byte character produces. -/
def parseStringEscapeSequence (esc : Chars) :
    Except StraceParseError (Nat × Chars) :=
  match esc with
  | [] => .error ⟨"unexpected end of string"⟩
  | c :: rest =>
    if c = '\\' then .ok (92, rest)
    else if c = 'a' then .ok (0x07, rest)
    else if c = 'b' then .ok (0x08, rest)
    else if c = 'e' then .ok (0x1B, rest)
    else if c = 'f' then .ok (0x0C, rest)
    else if c = 'n' then .ok (10, rest)
    else if c = 'r' then .ok (13, rest)
    else if c = 't' then .ok (9, rest)
    else if c = 'v' then .ok (0x0B, rest)
    else if c = '\'' then .ok (39, rest)
    else if c = '"' then .ok (34, rest)
    else if c = '?' then .ok (63, rest)
    else if c = 'x' then escHex rest
    else if isOctDigit c then escOct c rest
    else .error ⟨"invalid string escape"⟩

example : parseStringEscapeSequence ['0'] = .ok (0, []) := rfl
example : parseStringEscapeSequence ['1', '0', ' '] = .ok (8, [' ']) := rfl
example : parseStringEscapeSequence ['1', '7', '7'] = .ok (0x7F, []) := rfl
example : parseStringEscapeSequence ['1', '7', '8'] = .ok (0x0F, ['8']) := rfl
example : parseStringEscapeSequence ['3', '7', '7', '7'] = .ok (255, ['7']) := rfl
example : parseStringEscapeSequence ['4', '0', '0'] =
    .error ⟨"invalid octal escape in string"⟩ := rfl
example : parseStringEscapeSequence ['x', 'F', 'f', 'q'] = .ok (255, ['q']) := rfl

/-- Fractional part of a timestamp or duration token: the source feeds the
substring starting at the dot to `str::parse::<f64>` and computes
`(fraction * 1e9).round()` clamped to `0..=999_999_999`.  The embedding
performs the same computation in exact rational arithmetic (round half away
from zero on a non-negative value is round half up); the two agree on every
plain decimal fraction an strace line carries.  Exponent-form floats, which
`f64` parsing would also accept, are not modelled. -/
def parseSubsecNanos (sub : Chars) : Option Int :=
  match sub with
  | '.' :: ds =>
    if ds ≠ [] ∧ ds.all isDecDigit then
      let num := digitsVal ds * 1000000000
      let den := (10 : Nat) ^ ds.length
      let ns := (2 * num + den) / (2 * den)
      some (Int.ofNat (min ns 999999999))
    else none
  | _ => none

/-- The `parse_duration` helper of `src/strace/parser.rs` (lines 128-146):
split at the first dot, parse the seconds as `i64`, parse the fraction (which
keeps its leading dot) and round it to clamped nanoseconds.  The result is
the total signed duration in nanoseconds, the value `jiff::SignedDuration`
normalises the `(seconds, nanoseconds)` pair to. -/
def parseDuration (s : Chars) : Option Int :=
  let parts : Chars × Option Chars :=
    match firstSplit ['.'] s with
    | some (a, b) => (a, some ('.' :: b))
    | none => (s, none)
  match parseI64 parts.1 with
  | none => none
  | some secs =>
    match parts.2 with
    | none => some (secs * 1000000000)
    | some sub =>
      match parseSubsecNanos sub with
      | none => none
      | some ns => some (secs * 1000000000 + ns)

example : parseDuration "1.0".toList = some 1000000000 := rfl
example : parseDuration "1757048541.498563".toList = some 1757048541498563000 := rfl
example : parseDuration "0.000007".toList = some 7000 := rfl
example : parseDuration "123".toList = some 123000000000 := rfl
example : parseDuration "-1.5".toList = some (-500000000) := rfl
example : parseDuration "1.".toList = none := rfl

/-- Body of a scanned strace line (`Event` in the strace module root): the
scanner is lazy, so a syscall body keeps its argument and result substrings
unparsed. -/
inductive LEvent where
  | syscall (name : Chars) (argsString : Chars) (resultString : Chars) (duration : Int)
  | signal (sig : Chars)
  | exited (codeString : Chars)
  | killedBy (signalString : Chars)
deriving DecidableEq

/-- A scanned strace line.  `timestamp` is the instant in nanoseconds since
the Unix epoch (the value `jiff::Timestamp` orders by); `raw` is the original
line text, which the flame-chart sink quotes verbatim in its log bodies. -/
structure Line where
  pid : Pid
  timestamp : Int
  event : LEvent
  raw : Chars
deriving DecidableEq

/-- The line scanner, `parse_line` in `src/strace/parser.rs` (lines 13-98):
pid token, timestamp token, then one of the four body shapes.  The range
check of `jiff::Timestamp::from_duration` (representable years only) is not
modelled; no claim involves a timestamp near that range. -/
def parseLine (input : Chars) : Except StraceParseError Line :=
  match firstSplit [' '] input with
  | none => .error ⟨"expected pid"⟩
  | some (pidTok, rest1) =>
    match parseI32 pidTok with
    | none => .error ⟨"invalid pid"⟩
    | some pid =>
      match firstSplit [' '] rest1 with
      | none => .error ⟨"expected timestamp"⟩
      | some (tsTok, rest2) =>
        match parseDuration tsTok with
        | none => .error ⟨"invalid timestamp"⟩
        | some ts =>
          match stripPre "+++ ".toList rest2 with
          | some r =>
            match rsplitOnce " +++".toList r with
            | none => .error ⟨"failed to parse exit event"⟩
            | some (ev, after) =>
              if after = [] then
                match stripPre "exited with ".toList ev with
                | some codeString => .ok ⟨pid, ts, .exited codeString, input⟩
                | none =>
                  match stripPre "killed by ".toList ev with
                  | some sigString => .ok ⟨pid, ts, .killedBy sigString, input⟩
                  | none => .error ⟨"could not parse exit event"⟩
              else .error ⟨"expected end of input"⟩
          | none =>
            match stripPre "--- ".toList rest2 with
            | some r =>
              match stripSuf " ---".toList r with
              | none => .error ⟨"failed to parse signal event"⟩
              | some sig => .ok ⟨pid, ts, .signal sig, input⟩
            | none =>
              match firstSplit ['('] rest2 with
              | none => .error ⟨"failed to parse event"⟩
              | some (name, rest3) =>
                match (stripSuf ['>'] rest3).bind (rsplitOnce " <".toList) with
                | none => .error ⟨"expected duration at end of syscall"⟩
                | some (rest4, durTok) =>
                  match parseDuration durTok with
                  | none => .error ⟨"invalid duration"⟩
                  | some dur =>
                    if dur < 0 then .error ⟨"invalid duration"⟩
                    else
                      match rsplitOnce " = ".toList rest4 with
                      | none => .error ⟨"failed to parse syscall result"⟩
                      | some (argsRegion, resultString) =>
                        match stripSuf [')'] (trimEnd argsRegion) with
                        | none => .error ⟨"failed to parse syscall args"⟩
                        | some argsString =>
                          .ok ⟨pid, ts,
                            .syscall name argsString (trim resultString) dur, input⟩

example :
    parseLine "10 1.0 clone(x) = 11 <0.0>".toList =
      .ok ⟨10, 1000000000,
        .syscall "clone".toList "x".toList "11".toList 0,
        "10 1.0 clone(x) = 11 <0.0>".toList⟩ := rfl
example :
    parseLine "37755 2.5 +++ killed by SIGTERM +++".toList =
      .ok ⟨37755, 2500000000, .killedBy "SIGTERM".toList,
        "37755 2.5 +++ killed by SIGTERM +++".toList⟩ := rfl
example :
    parseLine "7 2.0 +++ exited with 0 +++".toList =
      .ok ⟨7, 2000000000, .exited "0".toList,
        "7 2.0 +++ exited with 0 +++".toList⟩ := rfl
example :
    parseLine "7 2.0 --- SIGCHLD ---".toList =
      .ok ⟨7, 2000000000, .signal "SIGCHLD".toList,
        "7 2.0 --- SIGCHLD ---".toList⟩ := rfl
example :
    parseLine "10 1.0 brk(NULL) = 0".toList =
      .error ⟨"expected duration at end of syscall"⟩ := rfl

/-- UTF-8 encoding of one character; literal pieces of a quoted string are
appended to the byte string as their UTF-8 bytes. -/
def charUtf8 (c : Char) : Bytes :=
  let n := c.toNat
  if n < 128 then [n]
  else if n < 2048 then [192 + n / 64, 128 + n % 64]
  else if n < 65536 then [224 + n / 4096, 128 + (n / 64) % 64, 128 + n % 64]
  else [240 + n / 262144, 128 + (n / 4096) % 64, 128 + (n / 64) % 64, 128 + n % 64]

/-- UTF-8 bytes of a string slice. -/
def strBytes (s : Chars) : Bytes := s.foldr (fun c acc => charUtf8 c ++ acc) []

/-- Binary operators recognised between values (`BinaryOperator` in the
strace module root): `&&`, `||`, `==`, `!=`. -/
inductive BinaryOperator where
  | and
  | or
  | equal
  | notEqual
deriving DecidableEq

mutual

/-- The recursive value tree of strace arguments and results (`Value` in the
strace module root, constructed by `src/strace/parser.rs`). -/
inductive Value where
  | string (bytes : Bytes)
  | truncatedString (bytes : Bytes)
  | expression (text : Chars)
  | functionCall (function : Chars) (args : List Field)
  | array (items : List Value)
  | notBitset (items : List Value)
  | sparseArray (items : List (Value × Value))
  | struct (fields : List Field)
  | annotated (value : Value) (annot : Bytes) (deleted : Bool)
  | commented (value : Value) (comment : Chars)
  | changed (fromValue : Value) (toValue : Value)
  | alternative (left : Value) (right : Value)
  | binaryOperations (first : Value) (rest : List (BinaryOperator × Value))
  | truncated

/-- A possibly named argument slot (`Field` in the strace module root). -/
inductive Field where
  | mk (name : Option Chars) (value : Value)

end

def Field.name : Field → Option Chars
  | .mk n _ => n

def Field.value : Field → Value
  | .mk _ v => v

/-- First character of an identifier: `[A-Za-z_]` (`parse_ident`). -/
def identStart (c : Char) : Bool :=
  ('a' ≤ c ∧ c ≤ 'z') ∨ ('A' ≤ c ∧ c ≤ 'Z') ∨ c = '_'

/-- Later characters of an identifier: `[A-Za-z0-9_]` (`parse_ident`). -/
def identCont (c : Char) : Bool := identStart c ∨ isDecDigit c

/-- The `parse_ident` helper (parser.rs lines 648-667): the longest
identifier prefix and the remainder, or `none` when the input does not start
with an identifier character. -/
def parseIdent (input : Chars) : Option (Chars × Chars) :=
  match input with
  | [] => none
  | c :: rest =>
    if identStart c then some (c :: rest.takeWhile identCont, rest.dropWhile identCont)
    else none

/-- The `is_ident` helper (parser.rs lines 669-675). -/
def isIdent (s : Chars) : Bool :=
  match parseIdent s with
  | some (_, rest) => rest = []
  | none => false

/-- Character class of a basic expression, `is_basic_expression_char`
(parser.rs lines 677-679). -/
def isBasicExprChar (c : Char) : Bool :=
  ('a' ≤ c ∧ c ≤ 'z') ∨ ('A' ≤ c ∧ c ≤ 'Z') ∨ isDecDigit c ∨
    c = '_' ∨ c = '+' ∨ c = '-' ∨ c = '*' ∨ c = '.' ∨ c = '/' ∨
    c = '^' ∨ c = '&' ∨ c = '|'

/-- The `parse_binary_op` helper (parser.rs lines 681-695). -/
def parseBinaryOp (s : Chars) : Option (BinaryOperator × Chars) :=
  match stripPre "&&".toList (trimStart s) with
  | some r => some (.and, trimStart r)
  | none =>
    match stripPre "||".toList (trimStart s) with
    | some r => some (.or, trimStart r)
    | none =>
      match stripPre "==".toList (trimStart s) with
      | some r => some (.equal, trimStart r)
      | none =>
        match stripPre "!=".toList (trimStart s) with
        | some r => some (.notEqual, trimStart r)
        | none => none

/-- Position of the next `"` or `\` in string content:
`string.find(&['"', '\\'])` followed by `split_at`, returning the literal
run and the remainder starting at the found character; `none` when neither
occurs (which the string parser reports as an unterminated string). -/
def findQB (s : Chars) : Option (Chars × Chars) :=
  match s with
  | [] => none
  | c :: cs =>
    if c = '"' ∨ c = '\\' then some ([], c :: cs)
    else (findQB cs).map (fun p => (c :: p.1, p.2))

/-- String-content loop of the string branch in `parse_value_basic`
(parser.rs lines 159-176): while the remainder starts with a backslash,
decode one escape, then copy the next literal run up to the following quote
or backslash.  Every iteration consumes at least one character, so the fuel
supplied by the caller (one more than the remaining length) never runs out. -/
def stringLoop : Nat → Bytes → Chars → Except StraceParseError (Bytes × Chars)
  | 0, _, _ => .error ⟨"parser fuel exhausted"⟩
  | fuel + 1, acc, rest =>
    match rest with
    | '\\' :: esc =>
      match parseStringEscapeSequence esc with
      | .error e => .error e
      | .ok (b, rest2) =>
        match findQB rest2 with
        | none => .error ⟨"unexpected string end"⟩
        | some (lit, rest3) => stringLoop fuel (acc ++ b :: strBytes lit) rest3
    | _ => .ok (acc, rest)

/-- Annotation-content loop of `parse_value` (parser.rs lines 395-477):
collect bytes until the matching `>`, keeping balanced nested `<>` pairs,
treating a `>` whose preceding annotation byte is `-` as literal content,
and decoding string escapes.  Fuel as in `stringLoop`. -/
def annotLoop : Nat → Bytes → Nat → Chars → Except StraceParseError (Bytes × Chars)
  | 0, _, _, _ => .error ⟨"parser fuel exhausted"⟩
  | fuel + 1, acc, depth, rest =>
    match rest with
    | [] => .error ⟨"unterminated annotation"⟩
    | c :: rest1 =>
      if c = '>' then
        if acc.getLast? = some 45 then annotLoop fuel (acc ++ [62]) depth rest1
        else if depth = 0 then .ok (acc, rest1)
        else annotLoop fuel (acc ++ [62]) (depth - 1) rest1
      else if c = '\\' then
        match parseStringEscapeSequence rest1 with
        | .error e => .error e
        | .ok (b, rest2) => annotLoop fuel (acc ++ [b]) depth rest2
      else
        annotLoop fuel (acc ++ charUtf8 c) (if c = '<' then depth + 1 else depth) rest1

/-- Identifier immediately followed by an opening parenthesis: the guard of
the function-call branch of `parse_value_basic` (parser.rs lines 187-189). -/
def identParenSplit (input : Chars) : Option (Chars × Chars) :=
  match parseIdent input with
  | some (ident, rest) =>
    match stripPre ['('] rest with
    | some rest2 => some (ident, rest2)
    | none => none
  | none => none

mutual

/-- The `parse_value_basic` alternatives (parser.rs lines 148-389): string,
function call, bracket (sparse array / array / bitset), not-bitset, struct,
truncation marker, basic expression.  All parser functions carry a fuel
argument for termination; the wrappers supply fuel exceeding any possible
recursion depth, so the fuel-exhaustion error never fires on real input. -/
def parseValueBasicF : Nat → Chars → Except StraceParseError (Value × Chars)
  | 0, _ => .error ⟨"parser fuel exhausted"⟩
  | fuel + 1, input =>
    match stripPre ['"'] input with
    | some s0 =>
      match findQB s0 with
      | none => .error ⟨"invalid string value"⟩
      | some (lit, rest) =>
        match stringLoop (rest.length + 1) (strBytes lit) rest with
        | .error e => .error e
        | .ok (bytes, rest) =>
          match rest with
          | '"' :: rest2 =>
            match stripPre "...".toList rest2 with
            | some rest3 => .ok (.truncatedString bytes, rest3)
            | none => .ok (.string bytes, rest2)
          | _ => .error ⟨"expected closing quote for string"⟩
    | none =>
      match identParenSplit input with
      | some (ident, rest) => fnCallLoopF fuel ident [] false rest
      | none =>
        match stripPre ['['] input with
        | some rest0 =>
          match sparseAttemptF fuel rest0 with
          | some (firstIndex, afterEq) =>
            match parseValueF fuel (trimStart afterEq) with
            | .error e => .error e
            | .ok (firstItem, rest) =>
              sparseLoopF fuel [(firstIndex, firstItem)] rest
          | none => arrayLoopF fuel [] true none rest0
        | none =>
          match stripPre "~[".toList input with
          | some rest0 => notBitsetLoopF fuel [] true rest0
          | none =>
            match stripPre ['{'] (trimStart input) with
            | some rest0 => structLoopF fuel [] true rest0
            | none =>
              match stripPre "...".toList input with
              | some rest => .ok (.truncated, rest)
              | none =>
                match input with
                | c :: _ =>
                  if isBasicExprChar c then
                    .ok (.expression (input.takeWhile isBasicExprChar),
                      input.dropWhile isBasicExprChar)
                  else .error ⟨"unrecognized expression"⟩
                | [] => .error ⟨"unrecognized expression"⟩

/-- Probe for the sparse-array form `[ [index] = …` after an opening
bracket: the let-chain guard of parser.rs lines 226-232.  A failure here
backtracks to the flat array/bitset branch. -/
def sparseAttemptF : Nat → Chars → Option (Value × Chars)
  | 0, _ => none
  | fuel + 1, rest0 =>
    match stripPre ['['] (trimStart rest0) with
    | none => none
    | some r1 =>
      match parseValueF fuel r1 with
      | .error _ => none
      | .ok (firstIndex, r2) =>
        match (stripPre [']'] (trimStart r2)).bind
            (fun r => stripPre ['='] (trimStart r)) with
        | some r3 => some (firstIndex, r3)
        | none => none

/-- Remaining items of a committed sparse array (parser.rs lines 238-278). -/
def sparseLoopF : Nat → List (Value × Value) → Chars →
    Except StraceParseError (Value × Chars)
  | 0, _, _ => .error ⟨"parser fuel exhausted"⟩
  | fuel + 1, items, rest =>
    let rest := trimStart rest
    match stripPre [']'] rest with
    | some r => .ok (.sparseArray items, r)
    | none =>
      if rest = [] then .error ⟨"unexpected end of sparse array"⟩
      else
        match stripPre ", [".toList rest with
        | none => .error ⟨"expected comma-bracket or bracket after sparse array item"⟩
        | some r1 =>
          match parseValueF fuel (trimStart r1) with
          | .error e => .error e
          | .ok (index, r2) =>
            match (stripPre [']'] (trimStart r2)).bind
                (fun r => (stripPre ['='] (trimStart r)).map trimStart) with
            | none => .error ⟨"expected bracket-equals after sparse array index"⟩
            | some r3 =>
              match parseValueF fuel r3 with
              | .error e => .error e
              | .ok (item, r4) => sparseLoopF fuel (items ++ [(index, item)]) r4

/-- Items of a flat array or bitset (parser.rs lines 279-321); the first
separator seen fixes comma mode or space mode. -/
def arrayLoopF : Nat → List Value → Bool → Option Bool → Chars →
    Except StraceParseError (Value × Chars)
  | 0, _, _, _, _ => .error ⟨"parser fuel exhausted"⟩
  | fuel + 1, items, isFirst, needsComma, rest =>
    match stripPre [']'] rest with
    | some r => .ok (.array items, r)
    | none =>
      if rest = [] then .error ⟨"unexpected end of array"⟩
      else
        let sep : Except StraceParseError (Chars × Option Bool) :=
          if isFirst then .ok (rest, needsComma)
          else
            match needsComma with
            | some true =>
              match stripPre ", ".toList rest with
              | some r => .ok (r, some true)
              | none => .error ⟨"expected comma-space or bracket after array item"⟩
            | some false =>
              match stripPre [' '] rest with
              | some r => .ok (r, some false)
              | none => .error ⟨"expected space after bitset element"⟩
            | none =>
              match stripPre ", ".toList rest with
              | some r => .ok (r, some true)
              | none =>
                match stripPre [' '] rest with
                | some r => .ok (r, some false)
                | none => .error ⟨"expected separator or bracket after first array item"⟩
        match sep with
        | .error e => .error e
        | .ok (r, nc) =>
          match parseValueF fuel r with
          | .error e => .error e
          | .ok (item, r2) => arrayLoopF fuel (items ++ [item]) false nc r2

/-- Items of a `~[…]` bitset (parser.rs lines 323-346): space-separated
with no comma alternative. -/
def notBitsetLoopF : Nat → List Value → Bool → Chars →
    Except StraceParseError (Value × Chars)
  | 0, _, _, _ => .error ⟨"parser fuel exhausted"⟩
  | fuel + 1, items, isFirst, rest =>
    match stripPre [']'] rest with
    | some r => .ok (.notBitset items, r)
    | none =>
      if rest = [] then .error ⟨"unexpected end of bitset"⟩
      else
        let sep : Except StraceParseError Chars :=
          if isFirst then .ok rest
          else
            match stripPre [' '] rest with
            | some r => .ok r
            | none => .error ⟨"expected space or bracket after bitset element"⟩
        match sep with
        | .error e => .error e
        | .ok r =>
          match parseValueF fuel r with
          | .error e => .error e
          | .ok (item, r2) => notBitsetLoopF fuel (items ++ [item]) false r2

/-- Fields of a brace-delimited struct (parser.rs lines 347-375). -/
def structLoopF : Nat → List Field → Bool → Chars →
    Except StraceParseError (Value × Chars)
  | 0, _, _, _ => .error ⟨"parser fuel exhausted"⟩
  | fuel + 1, fields, isFirst, rest =>
    let rest := trimStart rest
    match stripPre ['}'] rest with
    | some r => .ok (.struct fields, r)
    | none =>
      if rest = [] then .error ⟨"unexpected end of struct"⟩
      else
        let sep : Except StraceParseError Chars :=
          if isFirst then .ok rest
          else
            match stripPre [','] rest with
            | some r => .ok (trimStart r)
            | none => .error ⟨"expected comma or brace after struct field"⟩
        match sep with
        | .error e => .error e
        | .ok r =>
          match parseFieldF fuel r with
          | .error e => .error e
          | .ok (f, r2) => structLoopF fuel (fields ++ [f]) false r2

/-- Arguments of a function-call value (parser.rs lines 190-224):
comma-space separated fields up to the closing parenthesis. -/
def fnCallLoopF : Nat → Chars → List Field → Bool → Chars →
    Except StraceParseError (Value × Chars)
  | 0, _, _, _, _ => .error ⟨"parser fuel exhausted"⟩
  | fuel + 1, ident, fields, needsComma, rest =>
    match stripPre [')'] rest with
    | some r => .ok (.functionCall ident fields, r)
    | none =>
      if rest = [] then .error ⟨"unexpected end of function argument list"⟩
      else
        let sep : Except StraceParseError Chars :=
          if needsComma then
            match stripPre ", ".toList rest with
            | some r => .ok r
            | none => .error ⟨"expected comma-space or parenthesis after function argument"⟩
          else .ok rest
        match sep with
        | .error e => .error e
        | .ok r =>
          match parseFieldF fuel (trimStart r) with
          | .error e => .error e
          | .ok (f, r2) => fnCallLoopF fuel ident (fields ++ [f]) true r2

/-- Chain of `(op value)` pairs after a primary value (parser.rs lines
495-506). -/
def binOpsLoopF : Nat → List (BinaryOperator × Value) → Chars →
    Except StraceParseError (List (BinaryOperator × Value) × Chars)
  | 0, _, _ => .error ⟨"parser fuel exhausted"⟩
  | fuel + 1, acc, rest =>
    match parseBinaryOp rest with
    | none => .ok (acc, rest)
    | some (op, r1) =>
      match parseValueBasicF fuel r1 with
      | .error e => .error e
      | .ok (v, r2) => binOpsLoopF fuel (acc ++ [(op, v)]) r2

/-- The `parse_value` layering (parser.rs lines 391-552): primary value,
optional annotation with `(deleted)` marker, binary-operator chain,
alternative, comment, changed-value arrow. -/
def parseValueF : Nat → Chars → Except StraceParseError (Value × Chars)
  | 0, _ => .error ⟨"parser fuel exhausted"⟩
  | fuel + 1, input =>
    match parseValueBasicF fuel input with
    | .error e => .error e
    | .ok (v0, rest0) =>
      let annStep : Except StraceParseError (Value × Chars) :=
        match stripPre ['<'] rest0 with
        | some r1 =>
          match annotLoop (r1.length + 1) [] 0 r1 with
          | .error e => .error e
          | .ok (annotBytes, r2) =>
            match stripPre "(deleted)".toList r2 with
            | some r3 => .ok (.annotated v0 annotBytes true, r3)
            | none => .ok (.annotated v0 annotBytes false, r2)
        | none => .ok (v0, rest0)
      match annStep with
      | .error e => .error e
      | .ok (v1, rest1) =>
        match binOpsLoopF fuel [] rest1 with
        | .error e => .error e
        | .ok (ops, rest2) =>
          let v2 :=
            match ops with
            | [] => v1
            | _ :: _ => .binaryOperations v1 ops
          let altStep : Except StraceParseError (Value × Chars) :=
            match stripPre " or ".toList rest2 with
            | some r =>
              match parseValueF fuel (trimStart r) with
              | .error e => .error e
              | .ok (rv, rest3) => .ok (.alternative v2 rv, rest3)
            | none => .ok (v2, rest2)
          match altStep with
          | .error e => .error e
          | .ok (v3, rest3) =>
            let comStep : Except StraceParseError (Value × Chars) :=
              match stripPre "/*".toList (trimStart rest3) with
              | some r =>
                match firstSplit "*/".toList r with
                | none => .error ⟨"unterminated comment"⟩
                | some (comment, r2) => .ok (.commented v3 (trim comment), r2)
              | none => .ok (v3, rest3)
            match comStep with
            | .error e => .error e
            | .ok (v4, rest4) =>
              match stripPre "=>".toList (trimStart rest4) with
              | some r =>
                match parseValueF fuel (trimStart r) with
                | .error e => .error e
                | .ok (tv, rest5) => .ok (.changed v4 tv, rest5)
              | none => .ok (v4, rest4)

/-- The `parse_field` helper (parser.rs lines 572-592): a named field when
the text before the first `=` trims to an identifier and a non-empty
right-hand side follows, otherwise an anonymous value. -/
def parseFieldF : Nat → Chars → Except StraceParseError (Field × Chars)
  | 0, _ => .error ⟨"parser fuel exhausted"⟩
  | fuel + 1, input =>
    let nameAndRest : Option (Chars × Chars) :=
      match firstSplit ['='] input with
      | some (name, rest) =>
        let name := trim name
        let rest := trimStart rest
        if name ≠ [] ∧ rest ≠ [] ∧ isIdent name then some (name, rest) else none
      | none => none
    match nameAndRest with
    | some (name, rest) =>
      match parseValueF fuel rest with
      | .error e => .error e
      | .ok (v, r) => .ok (.mk (some name) v, r)
    | none =>
      match parseValueF fuel input with
      | .error e => .error e
      | .ok (v, r) => .ok (.mk none v, r)

/-- The `parse_args` loop (parser.rs lines 100-126): comma-separated fields
up to the end of the argument text. -/
def parseArgsLoopF : Nat → List Field → Bool → Chars →
    Except StraceParseError (List Field)
  | 0, _, _, _ => .error ⟨"parser fuel exhausted"⟩
  | fuel + 1, args, needsComma, input =>
    let input := trimStart input
    if input = [] then .ok args
    else
      let sep : Except StraceParseError Chars :=
        if needsComma then
          match stripPre [','] input with
          | some r => .ok (trimStart r)
          | none => .error ⟨"expected comma or end of args"⟩
        else .ok input
      match sep with
      | .error e => .error e
      | .ok r =>
        match parseFieldF fuel r with
        | .error e => .error e
        | .ok (f, r2) => parseArgsLoopF fuel (args ++ [f]) true r2

end

/-- Fuel bound used by the parser wrappers: the parser consumes at least one
character between consecutive recursive descents, so any bound well above
the input length is inexhaustible. -/
def fuelFor (s : Chars) : Nat := 8 * s.length + 16

/-- Entry point for value parsing with the residual input returned. -/
def parseValue (s : Chars) : Except StraceParseError (Value × Chars) :=
  parseValueF (fuelFor s) s

/-- Argument fields of a syscall (`Fields` in the strace module root). -/
structure FieldsS where
  values : List Field

/-- The `parse_args` entry point (parser.rs lines 100-126). -/
def parseArgs (s : Chars) : Except StraceParseError FieldsS :=
  match parseArgsLoopF (fuelFor s) [] false s with
  | .error e => .error e
  | .ok fs => .ok ⟨fs⟩

/-- The `parse_whole_value` wrapper (parser.rs lines 554-564): a parse that
must consume the entire input. -/
def parseWholeValue (s : Chars) : Except StraceParseError Value :=
  match parseValue s with
  | .error e => .error e
  | .ok (v, rest) =>
    if rest = [] then .ok v else .error ⟨"expected end of input after value"⟩

example : parseWholeValue "500".toList = .ok (.expression "500".toList) := rfl
example : parseWholeValue "foo()".toList = .ok (.functionCall "foo".toList []) := rfl
example :
    parseWholeValue "foo(1, 2)".toList =
      .ok (.functionCall "foo".toList
        [.mk none (.expression ['1']), .mk none (.expression ['2'])]) := rfl
example :
    parseWholeValue "[1, 2]".toList =
      .ok (.array [.expression ['1'], .expression ['2']]) := rfl
example :
    parseWholeValue "[1 2]".toList =
      .ok (.array [.expression ['1'], .expression ['2']]) := rfl
example :
    parseWholeValue "~[1 2]".toList =
      .ok (.notBitset [.expression ['1'], .expression ['2']]) := rfl
example :
    parseWholeValue "[ [1] = 100 ]".toList =
      .ok (.sparseArray [(.expression ['1'], .expression "100".toList)]) := rfl
example :
    parseWholeValue "FOO or BAR".toList =
      .ok (.alternative (.expression "FOO".toList) (.expression "BAR".toList)) := rfl
example :
    parseWholeValue "FOO => BAR".toList =
      .ok (.changed (.expression "FOO".toList) (.expression "BAR".toList)) := rfl
example :
    parseValue "\"foo\"...".toList =
      .ok (.truncatedString (strBytes "foo".toList), []) := rfl
example :
    parseValue "6</foo>(deleted)".toList =
      .ok (.annotated (.expression ['6']) (strBytes "/foo".toList) true, []) := rfl

/-- Split a byte string at the first occurrence of byte `b`
(`bstr` `split_once_str`), used on `=` (61) for environment entries and, in
its last-occurrence form below, on `/` (47) for command names. -/
def bytesSplitOnce (b : Nat) : Bytes → Option (Bytes × Bytes)
  | [] => none
  | c :: cs =>
    if c = b then some ([], cs)
    else (bytesSplitOnce b cs).map (fun p => (c :: p.1, p.2))

/-- Split a byte string at the last occurrence of byte `b`
(`bstr` `rsplit_once_str`). -/
def bytesRsplitOnce (b : Nat) (s : Bytes) : Option (Bytes × Bytes) :=
  (bytesSplitOnce b s.reverse).map (fun p => (p.2.reverse, p.1.reverse))

/-- Modelled from the spec: the strace module root (not present under
`src/`) defines `Value::to_bstring`; §4.B names it `to_bytes`: a byte string
for `String`, the bytes plus a literal `...` for `TruncatedString`, and the
displayable / left / from side through `Annotated`, `Commented`, `Changed`
and `Alternative`; every other variant yields none. -/
def Value.toBstring : Value → Option Bytes
  | .string b => some b
  | .truncatedString b => some (b ++ strBytes "...".toList)
  | .annotated v _ _ => v.toBstring
  | .commented v _ => v.toBstring
  | .changed v _ => v.toBstring
  | .alternative v _ => v.toBstring
  | _ => none

/-- Modelled from the spec: `Value::as_array` (§4.B) returns the element
slice only for `Array`. -/
def Value.asArray : Value → Option (List Value)
  | .array vs => some vs
  | _ => none

/-- Modelled from the spec: `Value::as_i32` (§4.B) parses `Expression` text
as a signed 32-bit integer. -/
def Value.asI32 : Value → Option Int
  | .expression t => parseI32 t
  | _ => none

/-- Modelled from the spec: `Fields::value_at_index`, the positional
argument access the analyzer uses (`args.value_at_index(0)` and friends). -/
def FieldsS.valueAtIndex (fs : FieldsS) (i : Nat) : Option Value :=
  (fs.values.get? i).map Field.value

/-- Modelled from the spec: the parsed syscall result the module root's
`SyscallEvent::result` returns — `returned` is the parsed value, or none
for a `?` result (a restarted call); the trailing free text is the message.
The shape follows §4.D together with the repository's earlier
`syscall_result` parser. -/
structure SyscallOutcome where
  returned : Option Value
  message : Chars

/-- Modelled from the spec: lazy parse of a syscall result substring
(`SyscallEvent::result`).  A value parse is attempted first; a leading `?`
means no returned value. -/
def syscallResult (rs : Chars) : Except StraceParseError SyscallOutcome :=
  match parseValue rs with
  | .ok (v, rest) => .ok ⟨some v, trimStart rest⟩
  | .error e =>
    match rs with
    | '?' :: rest => .ok ⟨none, trimStart rest⟩
    | _ => .error e

example : (syscallResult "-1".toList).map SyscallOutcome.returned =
    .ok (some (.expression "-1".toList)) := rfl
example : (syscallResult "11".toList).map SyscallOutcome.returned =
    .ok (some (.expression "11".toList)) := rfl
example : (syscallResult "? ERESTARTSYS".toList).map SyscallOutcome.returned =
    .ok none := rfl

/-- Modelled from the spec: lazy parse of an exited line's code substring
(`ExitedEvent::code`), the whole-input value parse of §4.B whose result
feeds `as_i32` (§4.D). -/
def exitedCode (codeString : Chars) : Except StraceParseError Value :=
  parseWholeValue codeString

/-- Exec payload carried by an exec event (`ProcessExec` in
`src/event.rs`). -/
structure ProcessExec where
  command : Option Bytes
  args : Option (List Bytes)
  env : Option (List (Bytes × Bytes))

/-- Fork event payload (`ForkProcessEvent` in `src/event.rs`). -/
structure ForkProcessEvent where
  childPid : Pid
  childOwnerPid : Option Pid

/-- Exec event payload (`ExecProcessEvent` in `src/event.rs`). -/
structure ExecProcessEvent where
  exec : ProcessExec
  reExec : Bool

/-- Reason a process stopped (`ProcessStoppedReason` in `src/event.rs`). -/
inductive ProcessStoppedReason where
  | exited (code : Option Int)
  | killed (signal : Option Chars)

/-- Stop event payload (`StopProcessEvent` in `src/event.rs`). -/
structure StopProcessEvent where
  stopped : ProcessStoppedReason
  didExec : Bool

/-- Kind of a semantic event (`EventKind` in `src/event.rs`). -/
inductive EventKind where
  | forkProcess (e : ForkProcessEvent)
  | execProcess (e : ExecProcessEvent)
  | stopProcess (e : StopProcessEvent)
  | log

/-- A semantic event (`Event` in `src/event.rs`): the classified kind plus
a snapshot of the analyzer's post-update parent and owner for the pid. -/
structure Event where
  timestamp : Int
  pid : Pid
  parentPid : Option Pid
  ownerPid : Option Pid
  strace : Line
  kind : EventKind

/-- File-name component of the exec'd command
(`ProcessExec::command_name` in `src/event.rs`): the part after the last
slash, or the whole command. -/
def ProcessExec.commandName (e : ProcessExec) : Option Bytes :=
  e.command.map (fun c =>
    match bytesRsplitOnce 47 c with
    | some p => p.2
    | none => c)

/-- Process status tracked by the analyzer (`ProcessStatus` in
`src/strace/analyzer.rs`). -/
inductive ProcessStatus where
  | forked
  | execed
  | stopped
deriving DecidableEq

/-- Per-pid state tracked by the analyzer (`ProcessState` in
`src/strace/analyzer.rs`). -/
structure ProcessState where
  parentPid : Option Pid
  ownerPid : Option Pid
  status : ProcessStatus
deriving DecidableEq

/-- Association-list lookup standing in for `HashMap::get`; the analyzer
never iterates its map, so the hash order is immaterial. -/
def alook {β : Type} : List (Pid × β) → Pid → Option β
  | [], _ => none
  | (k, v) :: t, p => if k = p then some v else alook t p

/-- The analyzer (`Analyzer` in `src/strace/analyzer.rs`): the process
table keyed by pid. -/
structure Analyzer where
  processes : List (Pid × ProcessState)

/-- The loop body of `Analyzer::find_owner_pid` (analyzer.rs lines
212-227), walking parent links until a process with status `Execed`, a
missing entry, or a missing parent.  The source loops forever on a cyclic
parent chain; the embedding cuts such a walk off by fuel.  A terminating
walk never repeats a pid, so the fuel `find_owner_pid` supplies (one more
than the table size) cannot run out on it (`ownerWalk_findOwnerPid`
below). -/
def findOwnerGo (procs : List (Pid × ProcessState)) :
    Nat → Pid → Option Pid
  | 0, _ => none
  | fuel + 1, pid =>
    match alook procs pid with
    | none => none
    | some st =>
      match st.status with
      | .execed => some pid
      | _ =>
        match st.parentPid with
        | none => none
        | some p => findOwnerGo procs fuel p

/-- `Analyzer::find_owner_pid` (analyzer.rs lines 212-227). -/
def findOwnerPid (procs : List (Pid × ProcessState)) (pid : Pid) : Option Pid :=
  findOwnerGo procs (procs.length + 1) pid

/-- `Analyzer::handle_fork` (analyzer.rs lines 164-179): resolve the
child's owner from the forker, insert the child only if unknown, and report
the (existing or new) entry's owner in the fork event. -/
def handleFork (a : Analyzer) (strace : Line) (childPid : Pid) :
    EventKind × Analyzer :=
  let childOwnerPid := findOwnerPid a.processes strace.pid
  match alook a.processes childPid with
  | some st => (.forkProcess ⟨childPid, st.ownerPid⟩, a)
  | none =>
    (.forkProcess ⟨childPid, childOwnerPid⟩,
      ⟨(childPid, ⟨some strace.pid, childOwnerPid, .forked⟩) :: a.processes⟩)

/-- Update only the status of an existing entry (the single field the
exec and stop handlers write through their `entry`). -/
def setStatus (l : List (Pid × ProcessState)) (k : Pid) (s : ProcessStatus) :
    List (Pid × ProcessState) :=
  l.map (fun kv => if kv.1 = k then (kv.1, { kv.2 with status := s }) else kv)

/-- `Analyzer::handle_exec` (analyzer.rs lines 181-195): create a fresh
`Forked` entry when the pid is unknown, flag a re-exec when the status was
already `Execed`, and transition to `Execed`. -/
def handleExec (a : Analyzer) (strace : Line) (exec : ProcessExec) :
    EventKind × Analyzer :=
  let entry :=
    match alook a.processes strace.pid with
    | some st => (st, a.processes)
    | none =>
      let st : ProcessState := ⟨none, none, .forked⟩
      (st, (strace.pid, st) :: a.processes)
  let reExec := entry.1.status = .execed
  (.execProcess ⟨exec, reExec⟩, ⟨setStatus entry.2 strace.pid .execed⟩)

/-- `Analyzer::handle_stopped` (analyzer.rs lines 197-210): create a fresh
`Stopped` entry when the pid is unknown, capture `did_exec`, and transition
to `Stopped`. -/
def handleStopped (a : Analyzer) (strace : Line)
    (stopped : ProcessStoppedReason) : EventKind × Analyzer :=
  let entry :=
    match alook a.processes strace.pid with
    | some st => (st, a.processes)
    | none =>
      let st : ProcessState := ⟨none, none, .stopped⟩
      (st, (strace.pid, st) :: a.processes)
  let didExec := entry.1.status = .execed
  (.stopProcess ⟨stopped, didExec⟩, ⟨setStatus entry.2 strace.pid .stopped⟩)

/-- Extraction of the exec'd command, argv and envp from parsed `execve`
arguments (analyzer.rs lines 31-72): positions 0, 1, 2; argv entries fall
back to the `<unknown arg>` sentinel; env entries split at the first `=`
and entries without one are dropped. -/
def execvePayload (args : FieldsS) : ProcessExec :=
  let command := (args.valueAtIndex 0).bind Value.toBstring
  let execArgs := ((args.valueAtIndex 1).bind Value.asArray).map
    (List.map (fun arg => (arg.toBstring).getD (strBytes "<unknown arg>".toList)))
  let env := ((args.valueAtIndex 2).bind Value.asArray).map
    (fun envs => envs.filterMap (fun e => (e.toBstring).bind (bytesSplitOnce 61)))
  ⟨command, execArgs, env⟩

/-- Extraction for `execveat` (analyzer.rs lines 74-131): dir fd at 0, path
at 1 (joined with a slash when the path is non-empty), argv at 2, envp
at 3. -/
def execveatPayload (args : FieldsS) : ProcessExec :=
  let dir := (args.valueAtIndex 0).bind Value.toBstring
  let cmd := (args.valueAtIndex 1).bind Value.toBstring
  let command : Option Bytes :=
    match dir, cmd with
    | some d, some c => some (if c = [] then d else d ++ 47 :: c)
    | some p, none => some p
    | none, some p => some p
    | none, none => none
  let execArgs := ((args.valueAtIndex 2).bind Value.asArray).map
    (List.map (fun arg => (arg.toBstring).getD (strBytes "<unknown arg>".toList)))
  let env := ((args.valueAtIndex 3).bind Value.asArray).map
    (fun envs => envs.filterMap (fun e => (e.toBstring).bind (bytesSplitOnce 61)))
  ⟨command, execArgs, env⟩

/-- Classification step of `Analyzer::analyze` (analyzer.rs lines 21-150):
the `match` computing the event kind, threading the process-table updates
of the handlers.  Every `?`-propagated parse error occurs before any handler
runs. -/
def analyzeKind (a : Analyzer) (line : Line) :
    Except StraceParseError (EventKind × Analyzer) :=
  match line.event with
  | .syscall name argsString resultString _ =>
    if name = "fork".toList ∨ name = "vfork".toList ∨
        name = "clone".toList ∨ name = "clone3".toList then
      match syscallResult resultString with
      | .error e => .error e
      | .ok result =>
        match result.returned.bind Value.asI32 with
        | none => .ok (.log, a)
        | some childPid => .ok (handleFork a line childPid)
    else if name = "execve".toList then
      match parseArgs argsString with
      | .error e => .error e
      | .ok args => .ok (handleExec a line (execvePayload args))
    else if name = "execveat".toList then
      match parseArgs argsString with
      | .error e => .error e
      | .ok args => .ok (handleExec a line (execveatPayload args))
    else .ok (.log, a)
  | .signal _ => .ok (.log, a)
  | .exited codeString =>
    match exitedCode codeString with
    | .error e => .error e
    | .ok code => .ok (handleStopped a line (.exited code.asI32))
  | .killedBy signalString =>
    let signal := signalString.takeWhile (fun c => c ≠ ' ')
    .ok (handleStopped a line (.killed (some signal)))

/-- `Analyzer::analyze` (analyzer.rs lines 20-162): classify the line, then
attach the post-update parent and owner snapshot.  The pair mirrors the
Rust `&mut self` receiver plus `Result` return: the left component is the
analyzer state after the call. -/
def analyze (a : Analyzer) (line : Line) :
    Analyzer × Except StraceParseError Event :=
  match analyzeKind a line with
  | .error e => (a, .error e)
  | .ok (kind, a') =>
    let st := alook a'.processes line.pid
    (a', .ok ⟨line.timestamp, line.pid, (st.bind ProcessState.parentPid),
      (st.bind ProcessState.ownerPid), line, kind⟩)

/-- Reorder-window bound, `WINDOW_SIZE` in `src/main.rs` (line 14). -/
def WINDOW_SIZE : Nat := 100

/-- Entry buffered by the reorder window: the enumerated line index and raw
text as in `src/main.rs` (line 139), plus the scanned `Line`.  The source
re-parses the raw text on release with the scan known to succeed; since
`parse_line` is a pure function, buffering its (successful) result is
observationally the same. -/
structure WEntry where
  lineIndex : Nat
  rawLine : Chars
  parsed : Line
deriving DecidableEq

/-- Insert into an ordered map represented as an association list sorted by
strictly increasing key (`BTreeMap::insert`): an existing entry with the
same key is replaced. -/
def btInsert {β : Type} (k : Int) (v : β) : List (Int × β) → List (Int × β)
  | [] => [(k, v)]
  | (k', v') :: t =>
    if k < k' then (k, v) :: (k', v') :: t
    else if k = k' then (k, v) :: t
    else (k', v') :: btInsert k v t

/-- Run one analyzer step on a released entry, dropping the event on a
parse error exactly as the `continue` arms of `src/main.rs` do. -/
def analyzeEntry (em : Analyzer) (e : WEntry) : Analyzer × List Event :=
  match analyze em e.parsed with
  | (em', .ok ev) => (em', [ev])
  | (em', .error _) => (em', [])

/-- The `while queued_lines.len() > WINDOW_SIZE` loop of `src/main.rs`
(lines 142-161): pop the minimum-timestamp entry (the head of the sorted
list, `first_entry`), analyze it and emit, until the window is back at its
bound.  Returns the analyzer, the remaining window, the released entries
with their timestamps, and the emitted events. -/
def drainOver (em : Analyzer) (queued : List (Int × WEntry)) :
    Analyzer × List (Int × WEntry) × List (Int × WEntry) × List Event :=
  if queued.length > WINDOW_SIZE then
    match queued with
    | [] => (em, [], [], [])
    | (ts, e) :: rest =>
      let step := analyzeEntry em e
      let next := drainOver step.1 rest
      (next.1, next.2.1, (ts, e) :: next.2.2.1, step.2 ++ next.2.2.2)
  else (em, queued, [], [])

/-- Pipeline state of the conversion loops in `src/main.rs`: the analyzer
and the timestamp-keyed reorder window. -/
structure PipeState where
  emitter : Analyzer
  queued : List (Int × WEntry)

/-- One iteration of the input loop of `strace_to_perfetto` /
`strace_to_otel` (`src/main.rs` lines 121-162 and 253-294): scan the line
(skipping it with a diagnostic on failure), insert it into the window keyed
by timestamp, and release entries beyond the window size. -/
def pipeStep (s : PipeState) (idx : Nat) (raw : Chars) :
    PipeState × List (Int × WEntry) × List Event :=
  match parseLine raw with
  | .error _ => (s, [], [])
  | .ok strace =>
    let q := btInsert strace.timestamp ⟨idx, raw, strace⟩ s.queued
    let d := drainOver s.emitter q
    (⟨d.1, d.2.1⟩, d.2.2.1, d.2.2.2)

/-- The whole input loop over the enumerated lines. -/
def pipeRun (s : PipeState) : List (Nat × Chars) →
    PipeState × List (Int × WEntry) × List Event
  | [] => (s, [], [])
  | (i, l) :: rest =>
    let st := pipeStep s i l
    let next := pipeRun st.1 rest
    (next.1, st.2.1 ++ next.2.1, st.2.2 ++ next.2.2)

/-- The end-of-input drain of `src/main.rs` (lines 165-183 and 297-315):
the remaining window entries in ascending key order, analyzed in turn. -/
def finalDrain (em : Analyzer) : List (Int × WEntry) →
    Analyzer × List (Int × WEntry) × List Event
  | [] => (em, [], [])
  | (ts, e) :: rest =>
    let step := analyzeEntry em e
    let next := finalDrain step.1 rest
    (next.1, (ts, e) :: next.2.1, step.2 ++ next.2.2)

/-- The conversion pipeline of `strace_to_perfetto` / `strace_to_otel`
restricted to its pure core: scan, reorder, analyze.  Returns the final
analyzer, the released `(timestamp, entry)` pairs in release order, and the
events handed to the sink in order. -/
def runPipeline (lines : List Chars) :
    Analyzer × List (Int × WEntry) × List Event :=
  let r := pipeRun ⟨⟨[]⟩, []⟩ lines.enum
  let d := finalDrain r.1.emitter r.1.queued
  (d.1, r.2.1 ++ d.2.1, r.2.2 ++ d.2.2)

/-- Options of the flame-chart sink (`PerfettoOutputOptions` in
`src/perfetto.rs`). -/
structure PerfettoOptions where
  logs : Bool

/-- Payload of an emitted trace packet, restricted to the semantic fields
the spec speaks about; the protobuf wire encoding is outside the core
contract (spec §1/§6). -/
inductive PacketData where
  | trackDescriptor (uuid : Nat) (parentUuid : Option Nat) (name : String)
  | sliceBegin (trackUuid : Nat) (name : Option Bytes)
  | sliceEnd (trackUuid : Nat)
  | logInstant (trackUuid : Option Nat) (bodyIid : Nat) (body : Chars)

/-- An emitted trace packet (`TracePacket` fields used by
`src/perfetto.rs`). -/
structure TracePacket where
  timestamp : Option Int
  data : PacketData

/-- State of the flame-chart sink (`PerfettoOutput` in `src/perfetto.rs`).
`nextUuid` models the `rand::random()` supply as a counter of fresh
values. -/
structure PerfettoOutput where
  options : PerfettoOptions
  trackUuidsByPid : List (Pid × Nat)
  logBodyIid : Nat
  rootTrackUuid : Option Nat
  nextUuid : Nat

/-- Replace-or-insert for the sink's pid-to-track map
(`HashMap::insert`). -/
def aInsert {β : Type} (l : List (Pid × β)) (k : Pid) (v : β) : List (Pid × β) :=
  match alook l k with
  | some _ => l.map (fun kv => if kv.1 = k then (kv.1, v) else kv)
  | none => (k, v) :: l

/-- Removal for the sink's pid-keyed maps (`HashMap::remove`). -/
def aRemove {β : Type} (l : List (Pid × β)) (k : Pid) : List (Pid × β) :=
  l.filter (fun kv => kv.1 ≠ k)

/-- `PerfettoOutput::output_event` (`src/perfetto.rs` lines 83-265): get or
lazily create the pid's track uuid, build the optional interned log packet,
then per kind: exec ends the previous slice on re-exec and rotates the
track uuid, emits a track descriptor and a slice begin; stop drops the
track mapping and emits a slice end; fork and log emit no slice change.
The packets are returned in the order they are pushed and flushed. -/
def perfettoOutputEvent (o : PerfettoOutput) (event : Event) :
    PerfettoOutput × List TracePacket :=
  let pid := event.pid
  let entry :=
    match alook o.trackUuidsByPid pid with
    | some u => (u, o.trackUuidsByPid, o.nextUuid)
    | none => (o.nextUuid, (pid, o.nextUuid) :: o.trackUuidsByPid, o.nextUuid + 1)
  let trackUuid := entry.1
  let tracks := entry.2.1
  let next := entry.2.2
  let timestamp := event.timestamp
  let logPackets : List TracePacket :=
    if o.options.logs then
      [⟨some timestamp, .logInstant o.rootTrackUuid o.logBodyIid
        (event.strace.raw ++ ['\n'])⟩]
    else []
  let logIid := if o.options.logs then o.logBodyIid + 1 else o.logBodyIid
  match event.kind with
  | .execProcess ee =>
    let rot :=
      if ee.reExec then
        ([(⟨some timestamp, .sliceEnd trackUuid⟩ : TracePacket)],
          next, aInsert tracks pid next, next + 1)
      else ([], trackUuid, tracks, next)
    let packets := rot.1 ++
      [⟨some timestamp, .trackDescriptor rot.2.1 o.rootTrackUuid "Processes"⟩,
       ⟨some timestamp, .sliceBegin rot.2.1 ee.exec.commandName⟩] ++ logPackets
    (⟨o.options, rot.2.2.1, logIid, o.rootTrackUuid, rot.2.2.2⟩, packets)
  | .stopProcess _ =>
    (⟨o.options, aRemove tracks pid, logIid, o.rootTrackUuid, next⟩,
      logPackets ++ [⟨some timestamp, .sliceEnd trackUuid⟩])
  | _ => (⟨o.options, tracks, logIid, o.rootTrackUuid, next⟩, logPackets)

/-- Options of the remote-span sink (`OtelOutputOptions` in
`src/otel.rs`). -/
structure OtelOptions where
  relativeTo : Option Int

/-- Span- and log-level effects of the remote-span sink, abstracting the
OpenTelemetry SDK calls of `src/otel.rs`; the OTLP wire protocol is outside
the core contract (spec §1/§6). -/
inductive OtelAction where
  | startRootSpan (timestamp : Int)
  | startSpan (spanId : Nat) (pid : Pid) (name : Bytes) (parentSpan : Option Nat)
  | endSpan (spanId : Nat) (timestamp : Int) (reExec : Bool)
  | emitLog (timestamp : Int)

/-- State of the remote-span sink (`OtelOutput` in `src/otel.rs`):
`processSpans` maps a pid to its live span, `rootSpan` is the lazily
created root, `nextSpanId` models fresh span identities. -/
structure OtelOutput where
  options : OtelOptions
  hasLogger : Bool
  rootSpan : Option Nat
  processSpans : List (Pid × Nat)
  firstEventTimestamp : Option Int
  lastEventTimestamp : Option Int
  nextSpanId : Nat

/-- Timestamp rewriting (`OtelOutput::adjust_timestamp`, otel.rs lines
212-223). -/
def adjustTimestamp (o : OtelOutput) (eventTimestamp : Int) : Int :=
  match o.options.relativeTo with
  | none => eventTimestamp
  | some relativeTo =>
    match o.firstEventTimestamp with
    | none => eventTimestamp
    | some first => relativeTo + (eventTimestamp - first)

/-- Lazy root span (`OtelOutput::root_span`, otel.rs lines 225-237):
initialise the first-event timestamp and create the root span once.
Returns the updated sink, the root span id, and the start action when the
root was created now. -/
def otelRootSpan (o : OtelOutput) (eventTimestamp : Int) :
    OtelOutput × Nat × List OtelAction :=
  let first := o.firstEventTimestamp.getD eventTimestamp
  let o := { o with firstEventTimestamp := some first }
  match o.rootSpan with
  | some r => (o, r, [])
  | none =>
    let r := o.nextSpanId
    ({ o with rootSpan := some r, nextSpanId := r + 1 }, r,
      [.startRootSpan (adjustTimestamp o first)])

/-- `OtelOutput::output_event` (`src/otel.rs` lines 49-210): record the
first and last timestamps, then per kind: exec starts a span named after
the command's file-name component parented to the owner pid's live span or
the root span, installing it as the pid's live span and ending a previous
one tagged re-exec; stop ends the pid's live span if any; fork and log
change no span.  With a logger, every event then emits one log record. -/
def otelOutputEvent (o : OtelOutput) (event : Event) :
    OtelOutput × List OtelAction :=
  let o := { o with
    firstEventTimestamp := some (o.firstEventTimestamp.getD event.timestamp),
    lastEventTimestamp := some event.timestamp }
  let adjusted := adjustTimestamp o event.timestamp
  let step : OtelOutput × List OtelAction :=
    match event.kind with
    | .execProcess ee =>
      let commandName : Bytes :=
        match ee.exec.commandName with
        | some n => n
        | none => strBytes (("process " ++ toString event.pid).toList)
      let parent : OtelOutput × Option Nat × List OtelAction :=
        match event.ownerPid.bind (alook o.processSpans) with
        | some sid => (o, some sid, [])
        | none =>
          let r := otelRootSpan o event.timestamp
          (r.1, none, r.2.2)
      let o1 := parent.1
      let spanId := o1.nextSpanId
      let prev := alook o1.processSpans event.pid
      let o2 := { o1 with
        processSpans := aInsert o1.processSpans event.pid spanId,
        nextSpanId := spanId + 1 }
      let endPrev : List OtelAction :=
        match prev with
        | some prevId => [.endSpan prevId adjusted true]
        | none => []
      (o2, parent.2.2 ++ [.startSpan spanId event.pid commandName parent.2.1] ++ endPrev)
    | .stopProcess _ =>
      match alook o.processSpans event.pid with
      | some spanId =>
        ({ o with processSpans := aRemove o.processSpans event.pid },
          [.endSpan spanId adjusted false])
      | none => (o, [])
    | _ => (o, [])
  if step.1.hasLogger then
    let o2 := step.1
    let corr :=
      match alook o2.processSpans event.pid with
      | some _ => (o2, ([] : List OtelAction))
      | none =>
        match event.ownerPid.bind (alook o2.processSpans) with
        | some _ => (o2, ([] : List OtelAction))
        | none =>
          let r := otelRootSpan o2 event.timestamp
          (r.1, r.2.2)
    (corr.1, step.2 ++ corr.2 ++ [.emitLog adjusted])
  else step

example :
    (analyze ⟨[]⟩ ⟨10, 1000000000,
        .syscall "clone".toList "x".toList "-1".toList 0, []⟩).1.processes =
      [(-1, ⟨some 10, none, .forked⟩)] := rfl
example :
    (analyze ⟨[]⟩ ⟨10, 1000000000,
        .syscall "clone".toList "x".toList "11".toList 0, []⟩).1.processes =
      [(11, ⟨some 10, none, .forked⟩)] := rfl
example :
    (analyze ⟨[]⟩ ⟨10, 1000000000,
        .syscall "clone".toList "x".toList "0x7f".toList 0, []⟩) =
      (⟨[]⟩, .ok ⟨1000000000, 10, none, none,
        ⟨10, 1000000000, .syscall "clone".toList "x".toList "0x7f".toList 0, []⟩,
        .log⟩) := rfl
example :
    (analyze ⟨[]⟩ ⟨7, 2000000000, .exited "0".toList, []⟩).1.processes =
      [(7, ⟨none, none, .stopped⟩)] := rfl
example :
    (analyze ⟨[]⟩ ⟨7, 2000000000, .exited "0".toList, []⟩).2 =
      .ok ⟨2000000000, 7, none, none, ⟨7, 2000000000, .exited "0".toList, []⟩,
        .stopProcess ⟨.exited (some 0), false⟩⟩ := rfl
example :
    (parseLine "10 1.0 execve(\"/bin/a\", [\"a\"], []) = 0 <0.0>".toList).map
        Line.event =
      .ok (.syscall "execve".toList "\"/bin/a\", [\"a\"], []".toList
        "0".toList 0) := rfl
example :
    (analyze ⟨[]⟩ ⟨10, 1000000000,
        .syscall "execve".toList "\"/bin/a\", [\"a\"], []".toList "0".toList 0,
        []⟩).1.processes =
      [(10, ⟨none, none, .execed⟩)] := rfl
example :
    ((analyze ⟨[]⟩ ⟨10, 1000000000,
        .syscall "execve".toList "\"/bin/a\", [\"a\"], []".toList "0".toList 0,
        []⟩).2.map Event.kind) =
      .ok (.execProcess ⟨⟨some (strBytes "/bin/a".toList),
        some [strBytes "a".toList], some []⟩, false⟩) := rfl
example :
    ((runPipeline ["1 5.0 a() = 0 <0>".toList,
        "2 5.0 b() = 0 <0>".toList]).2.1.map Prod.fst) = [5000000000] := rfl
example :
    ((runPipeline ["1 5.0 a() = 0 <0>".toList,
        "2 5.0 b() = 0 <0>".toList]).2.2.map Event.pid) = [2] := rfl

theorem u8Oct_of_digits (ds : Chars) (h1 : ds ≠ [])
    (h2 : ds.all isOctDigit = true) :
    u8FromStrRadix 8 ds =
      if octVal ds ≤ 255 then some (octVal ds) else none := by
  match ds with
  | d :: rest =>
    have hd : isOctDigit d = true := by
      simp [List.all_cons] at h2
      exact h2.1
    have hplus : d ≠ '+' := by
      intro h
      subst h
      exact absurd hd (by decide)
    have hminus : d ≠ '-' := by
      intro h
      subst h
      exact absurd hd (by decide)
    simp [u8FromStrRadix, hplus, hminus, h2]

theorem escSeq_octal (c : Char) (rest : Chars) (hc : isOctDigit c = true) :
    parseStringEscapeSequence (c :: rest) = escOct c rest := by
  have n1 : c ≠ '\\' := by intro h; subst h; exact absurd hc (by decide)
  have n2 : c ≠ 'a' := by intro h; subst h; exact absurd hc (by decide)
  have n3 : c ≠ 'b' := by intro h; subst h; exact absurd hc (by decide)
  have n4 : c ≠ 'e' := by intro h; subst h; exact absurd hc (by decide)
  have n5 : c ≠ 'f' := by intro h; subst h; exact absurd hc (by decide)
  have n6 : c ≠ 'n' := by intro h; subst h; exact absurd hc (by decide)
  have n7 : c ≠ 'r' := by intro h; subst h; exact absurd hc (by decide)
  have n8 : c ≠ 't' := by intro h; subst h; exact absurd hc (by decide)
  have n9 : c ≠ 'v' := by intro h; subst h; exact absurd hc (by decide)
  have n10 : c ≠ '\'' := by intro h; subst h; exact absurd hc (by decide)
  have n11 : c ≠ '"' := by intro h; subst h; exact absurd hc (by decide)
  have n12 : c ≠ '?' := by intro h; subst h; exact absurd hc (by decide)
  have n13 : c ≠ 'x' := by intro h; subst h; exact absurd hc (by decide)
  rw [parseStringEscapeSequence]
  simp only [if_neg n1, if_neg n2, if_neg n3, if_neg n4, if_neg n5, if_neg n6,
    if_neg n7, if_neg n8, if_neg n9, if_neg n10, if_neg n11, if_neg n12,
    if_neg n13, if_pos hc]

/-- Claim C6, counterexample.  The claim predicts that for an escape
`\0XY` with `Y` not an octal digit the parser halts after one digit with
the remainder literal; on the input `078` (octal `X = 7`, non-octal
`Y = 8`) the code instead consumes the two octal digits `07`, produces
byte 7, and leaves only `8` literal. -/
theorem spec_c6_counterexample :
    parseStringEscapeSequence ['0', '7', '8'] = .ok (7, ['8']) ∧
      (Except.ok (7, (['8'] : Chars)) :
          Except StraceParseError (Nat × Chars)) ≠ .ok (0, ['7', '8']) := by
  refine ⟨rfl, ?_⟩
  intro h
  simp at h

/-- Claim C6, amended: in quoted strings an octal escape consumes greedily
up to three octal digits (a fourth octal digit is left literal); when their
octal value fits in a byte it produces exactly that byte with the remainder
untouched, and when the three-digit value exceeds 255 the escape is a parse
error.  In particular for `\0XY` the parser halts after the `0` only when
`X` is itself not an octal digit. -/
theorem spec_c6_octal_escapes (ds rest : Chars)
    (hne : ds ≠ [])
    (hlen : ds.length ≤ 3)
    (hoct : ds.all isOctDigit = true)
    (hstop : ds.length = 3 ∨ ∀ c, rest.head? = some c → isOctDigit c = false) :
    (octVal ds ≤ 255 →
      parseStringEscapeSequence (ds ++ rest) = .ok (octVal ds, rest)) ∧
    (255 < octVal ds →
      parseStringEscapeSequence (ds ++ rest) =
        .error ⟨"invalid octal escape in string"⟩) := by
  have hTw : ((ds ++ rest).take 3).takeWhile isOctDigit = ds := by
    match ds, hlen with
    | [d1], _ =>
      have h1 : isOctDigit d1 = true := by simpa using hoct
      match rest with
      | [] => simp [List.takeWhile_cons, h1]
      | c :: cs =>
        have hc : isOctDigit c = false := by
          rcases hstop with h | h
          · simp at h
          · exact h c rfl
        cases cs with
        | nil => simp [List.takeWhile_cons, h1, hc]
        | cons c2 cs2 => simp [List.takeWhile_cons, h1, hc]
    | [d1, d2], _ =>
      have h1 : isOctDigit d1 = true := by simp [List.all_cons] at hoct; exact hoct.1
      have h2 : isOctDigit d2 = true := by simp [List.all_cons] at hoct; exact hoct.2
      match rest with
      | [] => simp [List.takeWhile_cons, h1, h2]
      | c :: cs =>
        have hc : isOctDigit c = false := by
          rcases hstop with h | h
          · simp at h
          · exact h c rfl
        simp [List.takeWhile_cons, h1, h2, hc]
    | [d1, d2, d3], _ =>
      have h1 : isOctDigit d1 = true := by simp [List.all_cons] at hoct; exact hoct.1
      have h2 : isOctDigit d2 = true := by simp [List.all_cons] at hoct; exact hoct.2.1
      have h3 : isOctDigit d3 = true := by simp [List.all_cons] at hoct; exact hoct.2.2
      simp [List.takeWhile_cons, h1, h2, h3]
    | d1 :: d2 :: d3 :: d4 :: ds', hlen => simp at hlen
  have hd1 : ∃ d1 tl, ds = d1 :: tl ∧ isOctDigit d1 = true := by
    match ds with
    | d1 :: tl =>
      refine ⟨d1, tl, rfl, ?_⟩
      simp [List.all_cons] at hoct
      exact hoct.1
  obtain ⟨d1, tl, hds, hd1oct⟩ := hd1
  have hcons : ds ++ rest = d1 :: (tl ++ rest) := by rw [hds]; rfl
  have hmain := escSeq_octal d1 (tl ++ rest) hd1oct
  rw [← hcons] at hmain
  rw [hmain]
  rw [escOct]
  simp only [← hcons]
  rw [hTw, u8Oct_of_digits ds hne hoct]
  constructor
  · intro hle
    simp [hle, List.drop_left]
  · intro hgt
    have : ¬ octVal ds ≤ 255 := by omega
    simp [this]

/-- Witness for the amended C6 theorem at the escape `\377` followed by a
further octal digit: three digits are consumed, the fourth stays literal. -/
theorem spec_c6_octal_escapes_witness :
    parseStringEscapeSequence (['3', '7', '7'] ++ ['7']) = .ok (255, ['7']) :=
  (spec_c6_octal_escapes ['3', '7', '7'] ['7'] (by decide) (by decide)
    (by decide) (Or.inl rfl)).1 (by decide)

theorem strBytes_ascii (w : Chars) (h : ∀ c ∈ w, c.toNat < 128) :
    strBytes w = w.map Char.toNat := by
  induction w with
  | nil => rfl
  | cons c w' ih =>
    have hc : c.toNat < 128 := h c (by simp)
    have : strBytes (c :: w') = charUtf8 c ++ strBytes w' := rfl
    rw [this, charUtf8, ih (fun d hd => h d (by simp [hd]))]
    simp [hc]

theorem getLast?_toNat (w : Chars) (h : w.getLast? ≠ some '-') :
    (w.map Char.toNat).getLast? ≠ some 45 := by
  induction w with
  | nil => simp
  | cons c w' ih =>
    cases w' with
    | nil =>
      simp only [List.map_cons, List.map_nil, List.getLast?_singleton] at *
      intro hc
      apply h
      have hval : c.toNat = 45 := by simpa using hc
      have hval2 : c.val.toNat = ('-').val.toNat := by
        simpa [Char.toNat] using hval
      have : c = '-' := Char.ext (UInt32.ext_iff.mpr hval2)
      simp [this]
    | cons c2 w2 =>
      have h1 : (c :: c2 :: w2).getLast? = (c2 :: w2).getLast? := by
        simp [List.getLast?]
      have h2 : ((c :: c2 :: w2).map Char.toNat).getLast? =
          ((c2 :: w2).map Char.toNat).getLast? := by
        simp [List.getLast?]
      rw [h2]
      exact ih (by rw [h1] at h; exact h)

/-- Content run of the annotation loop over plain characters: a stretch of
characters that are not delimiters and not escapes is copied byte for byte,
and the following `>` closes the annotation provided the accumulated bytes
do not end in `-`. -/
theorem annotLoop_plain (w : Chars) :
    ∀ (acc : Bytes) (rest : Chars) (fuel : Nat),
    (∀ c ∈ w, c ≠ '<' ∧ c ≠ '>' ∧ c ≠ '\\') →
    (acc ++ strBytes w).getLast? ≠ some 45 →
    w.length < fuel →
    annotLoop fuel acc 0 (w ++ '>' :: rest) = .ok (acc ++ strBytes w, rest) := by
  induction w with
  | nil =>
    intro acc rest fuel hw hlast hfuel
    match fuel, hfuel with
    | f + 1, _ =>
      have hacc : acc.getLast? ≠ some 45 := by simpa [strBytes] using hlast
      rw [annotLoop.eq_def]
      simp [hacc, strBytes]
  | cons c w' ih =>
    intro acc rest fuel hw hlast hfuel
    obtain ⟨hc1, hc2, hc3⟩ := hw c (by simp)
    match fuel, hfuel with
    | f + 1, hf =>
      rw [annotLoop.eq_def]
      have hsb : strBytes (c :: w') = charUtf8 c ++ strBytes w' := rfl
      simp only [List.cons_append]
      simp only [if_neg hc2, if_neg hc3, if_neg hc1]
      have := ih (acc ++ charUtf8 c) rest f
        (fun d hd => hw d (by simp [hd]))
        (by rw [hsb] at hlast; simpa [List.append_assoc] using hlast)
        (by simp at hf; omega)
      rw [this]
      rw [hsb]
      simp [List.append_assoc]

/-- Evaluation of the primary-value step on an identifier-like head that is
not followed by a parenthesis: the basic-expression branch fires. -/
theorem basicF_x (m : Nat) (tail : Chars) :
    parseValueBasicF (m + 1) ('x' :: '<' :: tail) =
      .ok (.expression ['x'], '<' :: tail) := rfl

/-- Claim C7: an annotation after a value is the byte sequence between the
angle delimiters, escape-decoded, with balanced nested pairs kept and a
`>` preceded by `-` treated as literal content; the nominated instance
`x<a<b->c>>` parses to `x` annotated with `a<b->c>`; and in general any run
of plain ASCII characters (no angle brackets, no escapes, not ending in a
dash) between `<` and `>` becomes the annotation bytes verbatim. -/
theorem spec_c7_annot_content :
    (parseWholeValue "x<a<b->c>>".toList =
      .ok (.annotated (.expression ['x']) (strBytes "a<b->c>".toList) false)) ∧
    (∀ w : Chars, (∀ c ∈ w, c ≠ '<' ∧ c ≠ '>' ∧ c ≠ '\\' ∧ c.toNat < 128) →
      w.getLast? ≠ some '-' →
      parseWholeValue ('x' :: '<' :: (w ++ ['>'])) =
        .ok (.annotated (.expression ['x']) (strBytes w) false)) := by
  constructor
  · rfl
  · intro w hw hdash
    have hlast : (strBytes w).getLast? ≠ some 45 := by
      rw [strBytes_ascii w (fun c hc => (hw c hc).2.2.2)]
      exact getLast?_toNat w hdash
    have hlen : ('x' :: '<' :: (w ++ ['>'])).length = w.length + 3 := by simp
    rw [parseWholeValue, parseValue, fuelFor, hlen]
    have hfuel : 8 * (w.length + 3) + 16 = (8 * (w.length + 3) + 14) + 2 := by
      omega
    rw [hfuel]
    rw [parseValueF]
    rw [basicF_x]
    have hsplit : stripPre ['<'] ('<' :: (w ++ ['>'])) = some (w ++ ['>']) := rfl
    simp only [hsplit]
    have hann := annotLoop_plain w [] [] ((w ++ ['>']).length + 1)
      (fun c hc => ⟨(hw c hc).1, (hw c hc).2.1, (hw c hc).2.2.1⟩)
      (by simpa using hlast)
      (by simp only [List.length_append, List.length_cons, List.length_nil]
          omega)
    have hann' : annotLoop ((w ++ ['>']).length + 1) [] 0 (w ++ ['>']) =
        .ok (strBytes w, []) := by
      have : (w ++ ['>'] : Chars) = w ++ '>' :: [] := by simp
      rw [this, hann]
      simp
    simp only [hann']
    rfl

/-- Witness for the universally quantified half of the C7 theorem, at the
single-character annotation `y`. -/
theorem spec_c7_annot_content_witness :
    parseWholeValue ('x' :: '<' :: (['y'] ++ ['>'])) =
      .ok (.annotated (.expression ['x']) (strBytes ['y']) false) :=
  spec_c7_annot_content.2 ['y'] (by decide) (by decide)

theorem stripPre_append (p s : Chars) : stripPre p (p ++ s) = some s := by
  induction p with
  | nil => rfl
  | cons c p' ih => simp [stripPre, ih]

theorem firstSplit_self (p s : Chars) : firstSplit p (p ++ s) = some ([], s) := by
  cases hps : p ++ s with
  | nil => rw [firstSplit, ← hps, stripPre_append]
  | cons c cs => rw [firstSplit, ← hps, stripPre_append]

theorem firstSplit_char {c : Char} {a : Chars} (b : Chars) (ha : c ∉ a) :
    firstSplit [c] (a ++ c :: b) = some (a, b) := by
  induction a with
  | nil =>
    have : (c :: b : Chars) = [c] ++ b := rfl
    rw [List.nil_append, this, firstSplit_self]
  | cons x a' ih =>
    have hxc : x ≠ c := by
      intro h
      exact ha (by simp [h])
    have h1 : stripPre [c] (x :: (a' ++ c :: b)) = none := by
      simp [stripPre, hxc]
    simp only [List.cons_append]
    rw [firstSplit, h1]
    rw [ih (fun h => ha (by simp [h]))]
    rfl

theorem rsplitOnce_suffix (pat m : Chars) :
    rsplitOnce pat (m ++ pat) = some (m, []) := by
  rw [rsplitOnce]
  have : (m ++ pat).reverse = pat.reverse ++ m.reverse := by
    simp [List.reverse_append]
  rw [this, firstSplit_self]
  simp

/-- Raw text of an exit-style strace line assembled from its tokens. -/
def c9Line (pidTok tsTok mid : Chars) : Chars :=
  pidTok ++ ' ' :: (tsTok ++ ' ' :: ("+++ ".toList ++ (mid ++ " +++".toList)))

/-- Claim C9: a line whose remainder after the pid and timestamp tokens is
`+++ <mid> +++` scans to an Exited body with the rest of `exited with `
as its code text, to a KilledBy body with the rest of `killed by ` as its
signal text, and to a scan error for any other middle. -/
theorem spec_c9_exit_scan (pidTok tsTok mid : Chars) (pidVal tsVal : Int)
    (hpid : parseI32 pidTok = some pidVal) (hpidSp : ' ' ∉ pidTok)
    (hts : parseDuration tsTok = some tsVal) (htsSp : ' ' ∉ tsTok) :
    (∀ r, stripPre "exited with ".toList mid = some r →
      parseLine (c9Line pidTok tsTok mid) =
        .ok ⟨pidVal, tsVal, .exited r, c9Line pidTok tsTok mid⟩) ∧
    (stripPre "exited with ".toList mid = none →
      ∀ r, stripPre "killed by ".toList mid = some r →
      parseLine (c9Line pidTok tsTok mid) =
        .ok ⟨pidVal, tsVal, .killedBy r, c9Line pidTok tsTok mid⟩) ∧
    (stripPre "exited with ".toList mid = none →
      stripPre "killed by ".toList mid = none →
      parseLine (c9Line pidTok tsTok mid) =
        .error ⟨"could not parse exit event"⟩) := by
  have h1 : firstSplit [' '] (c9Line pidTok tsTok mid) =
      some (pidTok, tsTok ++ ' ' :: ("+++ ".toList ++ (mid ++ " +++".toList))) :=
    firstSplit_char _ hpidSp
  have h2 : firstSplit [' ']
      (tsTok ++ ' ' :: ("+++ ".toList ++ (mid ++ " +++".toList))) =
      some (tsTok, "+++ ".toList ++ (mid ++ " +++".toList)) :=
    firstSplit_char _ htsSp
  have h3 : stripPre "+++ ".toList ("+++ ".toList ++ (mid ++ " +++".toList)) =
      some (mid ++ " +++".toList) := stripPre_append _ _
  have h4 : rsplitOnce " +++".toList (mid ++ " +++".toList) = some (mid, []) :=
    rsplitOnce_suffix _ _
  have hcommon : parseLine (c9Line pidTok tsTok mid) =
      (match stripPre "exited with ".toList mid with
       | some codeString =>
         .ok ⟨pidVal, tsVal, .exited codeString, c9Line pidTok tsTok mid⟩
       | none =>
         match stripPre "killed by ".toList mid with
         | some sigString =>
           .ok ⟨pidVal, tsVal, .killedBy sigString, c9Line pidTok tsTok mid⟩
         | none => .error ⟨"could not parse exit event"⟩) := by
    rw [parseLine]
    simp only [h1, hpid, h2, hts, h3, h4]
    simp
  refine ⟨?_, ?_, ?_⟩
  · intro r hr
    rw [hcommon, hr]
  · intro hnone r hr
    rw [hcommon, hnone, hr]
  · intro hnone1 hnone2
    rw [hcommon, hnone1, hnone2]

/-- Witness for the C9 theorem at the line `7 1.0 +++ exited with 0 +++`. -/
theorem spec_c9_exit_scan_witness :
    parseLine (c9Line "7".toList "1.0".toList "exited with 0".toList) =
      .ok ⟨7, 1000000000, .exited "0".toList,
        c9Line "7".toList "1.0".toList "exited with 0".toList⟩ :=
  (spec_c9_exit_scan "7".toList "1.0".toList "exited with 0".toList 7 1000000000
    rfl (by decide) rfl (by decide)).1 "0".toList rfl

/-- A scanned syscall line `clone(x) = -1 <0.0>` from pid 10: the shape of
a failed clone in an strace log. -/
def c1Line : Line :=
  ⟨10, 1000000000, .syscall "clone".toList "x".toList "-1".toList 0,
    "10 1.0 clone(x) = -1 <0.0>".toList⟩

/-- Claim C1, counterexample.  The claim requires the fork result to be a
signed integer that is at least 0, with a `Log` event (and no process-table
change) otherwise.  On a clone line whose result is `-1` — the shape of
every failed clone — the analyzer instead accepts the negative value,
inserts pid `-1` into the process table with the forker as parent, and
emits a Fork event. -/
theorem spec_c1_counterexample :
    parseLine "10 1.0 clone(x) = -1 <0.0>".toList = .ok c1Line ∧
    (analyze ⟨[]⟩ c1Line).1.processes = [(-1, ⟨some 10, none, .forked⟩)] ∧
    ((analyze ⟨[]⟩ c1Line).2.map Event.kind = .ok (.forkProcess ⟨-1, none⟩)) ∧
    (∀ e : ForkProcessEvent, EventKind.forkProcess e ≠ .log) ∧
    ([(-1, (⟨some 10, none, .forked⟩ : ProcessState))] ≠
      (⟨[]⟩ : Analyzer).processes) := by
  refine ⟨rfl, rfl, rfl, ?_, ?_⟩
  · intro e h
    exact EventKind.noConfusion h
  · intro h
    exact List.noConfusion h

/-- Claim C1, amended: for a reordered syscall line named fork, vfork,
clone or clone3 the analyzer requires the parsed result to be a signed
32-bit integer of any sign (the child pid).  When the conversion fails it
emits `Log` with no process-table change; when it yields a pid — including
a negative one such as the `-1` of a failed call — it inserts the child
(if not already known) with the forker as parent and the forker's first
Execed ancestor as owner, and emits a Fork event. -/
theorem spec_c1_fork_result (a : Analyzer) (line : Line)
    (name argsString resultString : Chars) (dur : Int)
    (hev : line.event = .syscall name argsString resultString dur)
    (hname : name = "fork".toList ∨ name = "vfork".toList ∨
      name = "clone".toList ∨ name = "clone3".toList) :
    (∀ outcome, syscallResult resultString = .ok outcome →
      outcome.returned.bind Value.asI32 = none →
      analyze a line = (a, .ok ⟨line.timestamp, line.pid,
        ((alook a.processes line.pid).bind ProcessState.parentPid),
        ((alook a.processes line.pid).bind ProcessState.ownerPid),
        line, .log⟩)) ∧
    (∀ outcome childPid, syscallResult resultString = .ok outcome →
      outcome.returned.bind Value.asI32 = some childPid →
      alook a.processes childPid = none →
      (analyze a line).1.processes =
        (childPid, ⟨some line.pid, findOwnerPid a.processes line.pid, .forked⟩)
          :: a.processes ∧
      ((analyze a line).2.map Event.kind) =
        .ok (.forkProcess ⟨childPid, findOwnerPid a.processes line.pid⟩)) ∧
    (∀ outcome childPid st, syscallResult resultString = .ok outcome →
      outcome.returned.bind Value.asI32 = some childPid →
      alook a.processes childPid = some st →
      (analyze a line).1 = a ∧
      ((analyze a line).2.map Event.kind) =
        .ok (.forkProcess ⟨childPid, st.ownerPid⟩)) := by
  have hak : analyzeKind a line =
      (match syscallResult resultString with
       | .error e => .error e
       | .ok result =>
         match result.returned.bind Value.asI32 with
         | none => .ok (.log, a)
         | some childPid => .ok (handleFork a line childPid)) := by
    simp only [analyzeKind, hev]
    rw [if_pos hname]
  refine ⟨?_, ?_, ?_⟩
  · intro outcome ho hnone
    simp only [analyze, hak, ho, hnone]
  · intro outcome childPid ho hsome hnew
    have hhf : handleFork a line childPid =
        (.forkProcess ⟨childPid, findOwnerPid a.processes line.pid⟩,
          ⟨(childPid,
            ⟨some line.pid, findOwnerPid a.processes line.pid, .forked⟩)
            :: a.processes⟩) := by
      simp only [handleFork, hnew]
    constructor
    · simp only [analyze, hak, ho, hsome, hhf]
    · simp only [analyze, hak, ho, hsome, hhf, Except.map]
  · intro outcome childPid st ho hsome hknown
    have hhf : handleFork a line childPid =
        (.forkProcess ⟨childPid, st.ownerPid⟩, a) := by
      simp only [handleFork, hknown]
    constructor
    · simp only [analyze, hak, ho, hsome, hhf]
    · simp only [analyze, hak, ho, hsome, hhf, Except.map]

/-- Witness for the amended C1 theorem: a clone line returning `-1` from
pid 10 over the empty table inserts pid `-1` and emits Fork. -/
theorem spec_c1_fork_result_witness :
    (analyze ⟨[]⟩ c1Line).1.processes =
      (-1, ⟨some 10, findOwnerPid ([] : List (Pid × ProcessState)) 10, .forked⟩)
        :: ([] : List (Pid × ProcessState)) ∧
    ((analyze ⟨[]⟩ c1Line).2.map Event.kind) =
      .ok (.forkProcess ⟨-1, findOwnerPid ([] : List (Pid × ProcessState)) 10⟩) :=
  (spec_c1_fork_result ⟨[]⟩ c1Line "clone".toList "x".toList "-1".toList 0
    rfl (Or.inr (Or.inr (Or.inl rfl)))).2.1 ⟨some (.expression "-1".toList), []⟩
    (-1) rfl rfl rfl

theorem alook_setStatus {l : List (Pid × ProcessState)} {k q : Pid}
    {s : ProcessStatus} :
    alook (setStatus l k s) q =
      (alook l q).map (fun st => if q = k then { st with status := s } else st) := by
  induction l with
  | nil => rfl
  | cons kv t ih =>
    obtain ⟨k', v⟩ := kv
    have hstep : setStatus ((k', v) :: t) k s =
        (if k' = k then (k', { v with status := s }) else (k', v))
          :: setStatus t k s := by
      simp only [setStatus, List.map_cons]
    rw [hstep]
    by_cases hk : k' = k
    · rw [if_pos hk]
      by_cases hq : k' = q
      · subst hk
        subst hq
        simp [alook]
      · simp only [alook, if_neg hq]
        exact ih
    · rw [if_neg hk]
      by_cases hq : k' = q
      · subst hq
        have hqk : ¬ (k' = k) := hk
        simp [alook, hqk]
      · simp only [alook, if_neg hq]
        exact ih

theorem handleFork_lookup (a : Analyzer) (line : Line) (c q : Pid)
    (st : ProcessState) (hst : alook a.processes q = some st) :
    alook (handleFork a line c).2.processes q = some st := by
  unfold handleFork
  cases hc : alook a.processes c with
  | some st' => simpa using hst
  | none =>
    have hqc : c ≠ q := by
      intro h
      rw [h, hst] at hc
      exact Option.noConfusion hc
    simpa [alook, hqc] using hst

theorem handleExec_lookup (a : Analyzer) (line : Line) (exec : ProcessExec)
    (q : Pid) (st : ProcessState) (hst : alook a.processes q = some st) :
    alook (handleExec a line exec).2.processes q =
      some (if q = line.pid then { st with status := .execed } else st) := by
  unfold handleExec
  cases hp : alook a.processes line.pid with
  | some st0 =>
    simp only []
    rw [alook_setStatus, hst]
    rfl
  | none =>
    have hq : q ≠ line.pid := by
      intro h
      rw [← h, hst] at hp
      exact Option.noConfusion hp
    have hlq : ¬ (line.pid = q) := fun h => hq h.symm
    simp only []
    rw [alook_setStatus]
    have : alook ((line.pid, (⟨none, none, .forked⟩ : ProcessState))
        :: a.processes) q = some st := by
      simp [alook, hlq, hst]
    rw [this]
    simp [hq]

theorem handleStopped_lookup (a : Analyzer) (line : Line)
    (r : ProcessStoppedReason) (q : Pid) (st : ProcessState)
    (hst : alook a.processes q = some st) :
    alook (handleStopped a line r).2.processes q =
      some (if q = line.pid then { st with status := .stopped } else st) := by
  unfold handleStopped
  cases hp : alook a.processes line.pid with
  | some st0 =>
    simp only []
    rw [alook_setStatus, hst]
    rfl
  | none =>
    have hq : q ≠ line.pid := by
      intro h
      rw [← h, hst] at hp
      exact Option.noConfusion hp
    have hlq : ¬ (line.pid = q) := fun h => hq h.symm
    simp only []
    rw [alook_setStatus]
    have : alook ((line.pid, (⟨none, none, .stopped⟩ : ProcessState))
        :: a.processes) q = some st := by
      simp [alook, hlq, hst]
    rw [this]
    simp [hq]

/-- The line carries an exec syscall (`execve` or `execveat`). -/
def lineIsExec (line : Line) : Bool :=
  match line.event with
  | .syscall name _ _ _ =>
    name = "execve".toList ∨ name = "execveat".toList
  | _ => false

/-- Which handler a successful classification ran: the analyzer state after
`analyze` is the input state or the output of exactly one handler, with the
exec handler reached only from an exec syscall. -/
theorem analyzeKind_cases (a : Analyzer) (line : Line) {kind : EventKind}
    {a' : Analyzer} (h : analyzeKind a line = .ok (kind, a')) :
    a' = a ∨
    (∃ c, (handleFork a line c).2 = a') ∨
    (∃ e, (handleExec a line e).2 = a' ∧ lineIsExec line = true) ∨
    (∃ r, (handleStopped a line r).2 = a') := by
  unfold analyzeKind at h
  split at h
  · next name argsString resultString dur hev =>
    split_ifs at h with hname hexecve hexecveat
    · split at h
      · exact Except.noConfusion h
      · split at h
        · injection h with h2
          exact Or.inl (congrArg Prod.snd h2).symm
        · injection h with h2
          exact Or.inr (Or.inl ⟨_, (congrArg Prod.snd h2)⟩)
    · split at h
      · exact Except.noConfusion h
      · injection h with h2
        refine Or.inr (Or.inr (Or.inl ⟨_, (congrArg Prod.snd h2), ?_⟩))
        simp [lineIsExec, hev, hexecve]
    · split at h
      · exact Except.noConfusion h
      · injection h with h2
        refine Or.inr (Or.inr (Or.inl ⟨_, (congrArg Prod.snd h2), ?_⟩))
        simp [lineIsExec, hev, hexecveat]
    · injection h with h2
      exact Or.inl (congrArg Prod.snd h2).symm
  · next hev =>
    injection h with h2
    exact Or.inl (congrArg Prod.snd h2).symm
  · next cs hev =>
    split at h
    · exact Except.noConfusion h
    · injection h with h2
      exact Or.inr (Or.inr (Or.inr ⟨_, (congrArg Prod.snd h2)⟩))
  · next ss hev =>
    injection h with h2
    exact Or.inr (Or.inr (Or.inr ⟨_, (congrArg Prod.snd h2)⟩))

/-- Exit line followed by an exec line for the same pid 7. -/
def c3LineStop : Line :=
  ⟨7, 1000000000, .exited "0".toList, "7 1.0 +++ exited with 0 +++".toList⟩

/-- Exec line for pid 7, scanned from `7 2.0 execve("/bin/a", ["a"], []) = 0 <0.0>`. -/
def c3LineExec : Line :=
  ⟨7, 2000000000,
    .syscall "execve".toList "\"/bin/a\", [\"a\"], []".toList "0".toList 0,
    "7 2.0 execve(\"/bin/a\", [\"a\"], []) = 0 <0.0>".toList⟩

/-- Claim C3, counterexample.  The claim makes `Stopped` terminal except
for a fork-return re-entering `Forked`.  After the two-line sequence
`7 exited with 0` then `7 execve(...)` the analyzer holds pid 7 at status
`Execed`: the exec moved the pid out of `Stopped` without any fork and
without passing through `Forked`. -/
theorem spec_c3_counterexample :
    (analyze ⟨[]⟩ c3LineStop).1.processes = [(7, ⟨none, none, .stopped⟩)] ∧
    (analyze (analyze ⟨[]⟩ c3LineStop).1 c3LineExec).1.processes =
      [(7, ⟨none, none, .execed⟩)] ∧
    ProcessStatus.execed ≠ .stopped ∧ ProcessStatus.execed ≠ .forked := by
  exact ⟨rfl, rfl, by decide, by decide⟩

/-- Claim C3, amended: `Stopped` is not terminal and pid reuse does not
re-enter `Forked`.  For a pid currently `Stopped`: a fork/clone return
naming it leaves the process table unchanged (the entry, `Stopped`
included, is kept as is); an exec line for it moves the status directly to
`Execed`, reported with `re_exec = false`; and no other analyzed line moves
the pid out of `Stopped` — after any line the status is `Stopped`, or
`Execed` via an exec line for that pid. -/
theorem spec_c3_stopped_not_terminal (a : Analyzer) (p : Pid)
    (st : ProcessState) (hst : alook a.processes p = some st)
    (hstop : st.status = .stopped) :
    (∀ line, (handleFork a line p).2 = a) ∧
    (∀ line exec, line.pid = p →
      (handleExec a line exec).1 = .execProcess ⟨exec, false⟩ ∧
      alook (handleExec a line exec).2.processes p =
        some { st with status := .execed }) ∧
    (∀ line, ∃ st', alook (analyze a line).1.processes p = some st' ∧
      st'.parentPid = st.parentPid ∧ st'.ownerPid = st.ownerPid ∧
      (st'.status = .stopped ∨
        (st'.status = .execed ∧ line.pid = p ∧ lineIsExec line = true))) := by
  refine ⟨?_, ?_, ?_⟩
  · intro line
    unfold handleFork
    rw [hst]
  · intro line exec hlp
    subst hlp
    unfold handleExec
    rw [hst]
    simp only []
    constructor
    · have : (decide (st.status = ProcessStatus.execed)) = false := by
        rw [hstop]
        decide
      simp [this]
    · rw [alook_setStatus, hst]
      simp
  · intro line
    rw [analyze]
    cases hk : analyzeKind a line with
    | error e =>
      exact ⟨st, hst, rfl, rfl, Or.inl hstop⟩
    | ok ka =>
      obtain ⟨kind, a'⟩ := ka
      simp only []
      rcases analyzeKind_cases a line hk with h | ⟨c, h⟩ | ⟨e, h, hex⟩ | ⟨r, h⟩
      · subst h
        exact ⟨st, hst, rfl, rfl, Or.inl hstop⟩
      · rw [← h]
        exact ⟨st, handleFork_lookup a line c p st hst, rfl, rfl, Or.inl hstop⟩
      · rw [← h]
        by_cases hp : p = line.pid
        · refine ⟨{ st with status := .execed }, ?_, rfl, rfl, ?_⟩
          · rw [handleExec_lookup a line e p st hst, if_pos hp]
          · exact Or.inr ⟨rfl, hp.symm, hex⟩
        · refine ⟨st, ?_, rfl, rfl, Or.inl hstop⟩
          rw [handleExec_lookup a line e p st hst, if_neg hp]
      · rw [← h]
        by_cases hp : p = line.pid
        · refine ⟨{ st with status := .stopped }, ?_, rfl, rfl, Or.inl rfl⟩
          rw [handleStopped_lookup a line r p st hst, if_pos hp]
        · refine ⟨st, ?_, rfl, rfl, Or.inl hstop⟩
          rw [handleStopped_lookup a line r p st hst, if_neg hp]

/-- Witness for the amended C3 theorem: over a table holding pid 7 as
`Stopped`, a fork return naming 7 changes nothing and an exec for 7 yields
`Execed` with `re_exec = false`. -/
theorem spec_c3_stopped_not_terminal_witness :
    (handleFork ⟨[(7, ⟨none, none, .stopped⟩)]⟩ c3LineExec 7).2 =
      ⟨[(7, ⟨none, none, .stopped⟩)]⟩ ∧
    (handleExec ⟨[(7, ⟨none, none, .stopped⟩)]⟩ c3LineExec
        ⟨none, none, none⟩).1 = .execProcess ⟨⟨none, none, none⟩, false⟩ := by
  have h := spec_c3_stopped_not_terminal ⟨[(7, ⟨none, none, .stopped⟩)]⟩ 7
    ⟨none, none, .stopped⟩ rfl rfl
  exact ⟨h.1 c3LineExec, (h.2.1 c3LineExec ⟨none, none, none⟩ rfl).1⟩

/-- Claim C8: value-parse failures inside an analyzer step are atomic — an
erroring `analyze` call leaves the process table exactly as it was — and
the pipeline drops the offending line and continues: draining a window
whose head line fails analysis yields the same final analyzer and the same
event stream as draining without that line. -/
theorem spec_c8_analyze_atomic :
    (∀ (a : Analyzer) (line : Line) (e : StraceParseError),
      (analyze a line).2 = .error e → (analyze a line).1 = a) ∧
    (∀ (em : Analyzer) (ts : Int) (entry : WEntry)
        (rest : List (Int × WEntry)) (e : StraceParseError),
      (analyze em entry.parsed).2 = .error e →
      (finalDrain em ((ts, entry) :: rest)).1 = (finalDrain em rest).1 ∧
      (finalDrain em ((ts, entry) :: rest)).2.2 = (finalDrain em rest).2.2) := by
  have h1 : ∀ (a : Analyzer) (line : Line) (e : StraceParseError),
      (analyze a line).2 = .error e → (analyze a line).1 = a := by
    intro a line e h
    rw [analyze] at h ⊢
    cases hk : analyzeKind a line with
    | error e2 => rfl
    | ok p =>
      obtain ⟨kind, a'⟩ := p
      rw [hk] at h
      simp at h
  refine ⟨h1, ?_⟩
  intro em ts entry rest e h
  have hae : analyzeEntry em entry = (em, []) := by
    rw [analyzeEntry]
    cases hz : analyze em entry.parsed with
    | mk a' r =>
      cases r with
      | ok ev =>
        rw [hz] at h
        simp at h
      | error e2 =>
        have hA := h1 em entry.parsed e2 (by rw [hz])
        rw [hz] at hA
        simp at hA
        simp [hA]
  constructor
  · simp [finalDrain, hae]
  · simp [finalDrain, hae]

/-- Window entry for a line whose scan succeeds but whose lazy argument
parse fails: `execve("x) = 0` has an unterminated string argument. -/
def c8Bad : WEntry :=
  ⟨0, "10 1.0 execve(\"x) = 0 <0.0>".toList,
    ⟨10, 1000000000, .syscall "execve".toList "\"x".toList "0".toList 0,
      "10 1.0 execve(\"x) = 0 <0.0>".toList⟩⟩

example : parseLine "10 1.0 execve(\"x) = 0 <0.0>".toList = .ok c8Bad.parsed := rfl
example : (analyze ⟨[]⟩ c8Bad.parsed).2 =
    .error ⟨"invalid string value"⟩ := rfl

/-- Witness for the C8 theorem at a concrete failing exec line. -/
theorem spec_c8_analyze_atomic_witness :
    (analyze ⟨[]⟩ c8Bad.parsed).1 = ⟨[]⟩ ∧
    (finalDrain ⟨[]⟩ [(1000000000, c8Bad)]).2.2 =
      (finalDrain ⟨[]⟩ []).2.2 := by
  have h := spec_c8_analyze_atomic
  exact ⟨h.1 ⟨[]⟩ c8Bad.parsed ⟨"invalid string value"⟩ rfl,
    (h.2 ⟨[]⟩ 1000000000 c8Bad [] ⟨"invalid string value"⟩ rfl).2⟩

theorem analyze_preserves (a : Analyzer) (line : Line) (p : Pid)
    (st : ProcessState) (hst : alook a.processes p = some st) :
    ∃ st', alook (analyze a line).1.processes p = some st' ∧
      st'.parentPid = st.parentPid ∧ st'.ownerPid = st.ownerPid := by
  rw [analyze]
  cases hk : analyzeKind a line with
  | error e => exact ⟨st, hst, rfl, rfl⟩
  | ok ka =>
    obtain ⟨kind, a'⟩ := ka
    simp only []
    rcases analyzeKind_cases a line hk with h | ⟨c, h⟩ | ⟨e, h, _⟩ | ⟨r, h⟩
    · subst h
      exact ⟨st, hst, rfl, rfl⟩
    · rw [← h]
      exact ⟨st, handleFork_lookup a line c p st hst, rfl, rfl⟩
    · rw [← h]
      refine ⟨_, handleExec_lookup a line e p st hst, ?_, ?_⟩
      · by_cases hp : p = line.pid <;> simp [hp]
      · by_cases hp : p = line.pid <;> simp [hp]
    · rw [← h]
      refine ⟨_, handleStopped_lookup a line r p st hst, ?_, ?_⟩
      · by_cases hp : p = line.pid <;> simp [hp]
      · by_cases hp : p = line.pid <;> simp [hp]

/-- Analyze a whole sequence of reordered lines in order, threading the
process table as the pipeline does. -/
def analyzeAll (a : Analyzer) (lines : List Line) : Analyzer :=
  lines.foldl (fun s l => (analyze s l).1) a

theorem analyzeAll_preserves (lines : List Line) :
    ∀ (a : Analyzer) (p : Pid) (st : ProcessState),
    alook a.processes p = some st →
    ∃ st', alook (analyzeAll a lines).processes p = some st' ∧
      st'.parentPid = st.parentPid ∧ st'.ownerPid = st.ownerPid := by
  induction lines with
  | nil =>
    intro a p st h
    exact ⟨st, h, rfl, rfl⟩
  | cons l ls ih =>
    intro a p st h
    obtain ⟨st1, h1, hp1, ho1⟩ := analyze_preserves a l p st h
    obtain ⟨st2, h2, hp2, ho2⟩ := ih (analyze a l).1 p st1 h1
    refine ⟨st2, ?_, hp2.trans hp1, ho2.trans ho1⟩
    simpa [analyzeAll, List.foldl_cons] using h2

/-- The ancestor walk of `find_owner_pid` as a relation: from `q`, follow
parent links until a process with status `Execed` (result `some`), a pid
missing from the table, or a missing parent (result `none`).  The trace
collects the pids a parent step was taken from; a derivation exists exactly
when the source's loop terminates. -/
inductive OwnerWalk (procs : List (Pid × ProcessState)) :
    List Pid → Pid → Option Pid → Prop where
  | notFound {pid : Pid} (h : alook procs pid = none) :
      OwnerWalk procs [] pid none
  | execed {pid : Pid} {st : ProcessState} (h : alook procs pid = some st)
      (hs : st.status = .execed) : OwnerWalk procs [] pid (some pid)
  | noParent {pid : Pid} {st : ProcessState} (h : alook procs pid = some st)
      (hs : st.status ≠ .execed) (hp : st.parentPid = none) :
      OwnerWalk procs [] pid none
  | step {pid : Pid} {st : ProcessState} {p : Pid} {trace : List Pid}
      {r : Option Pid} (h : alook procs pid = some st)
      (hs : st.status ≠ .execed) (hp : st.parentPid = some p)
      (hw : OwnerWalk procs trace p r) : OwnerWalk procs (pid :: trace) pid r

theorem ownerWalk_det {procs : List (Pid × ProcessState)} :
    ∀ {t1 : List Pid} {q : Pid} {r1 : Option Pid}, OwnerWalk procs t1 q r1 →
    ∀ {t2 : List Pid} {r2 : Option Pid}, OwnerWalk procs t2 q r2 →
    t1 = t2 ∧ r1 = r2 := by
  intro t1 q r1 h1
  induction h1 with
  | notFound h =>
    intro t2 r2 h2
    cases h2 with
    | notFound h' => exact ⟨rfl, rfl⟩
    | execed h' hs => rw [h] at h'; exact Option.noConfusion h'
    | noParent h' hs hp => rw [h] at h'; exact Option.noConfusion h'
    | step h' hs hp hw => rw [h] at h'; exact Option.noConfusion h'
  | execed h hs =>
    intro t2 r2 h2
    cases h2 with
    | notFound h' => rw [h'] at h; exact Option.noConfusion h
    | execed h' hs' => exact ⟨rfl, rfl⟩
    | noParent h' hs' hp =>
      rw [h] at h'
      injection h' with he
      exact absurd (he ▸ hs) hs'
    | step h' hs' hp hw =>
      rw [h] at h'
      injection h' with he
      exact absurd (he ▸ hs) hs'
  | noParent h hs hp =>
    intro t2 r2 h2
    cases h2 with
    | notFound h' => rw [h'] at h; exact Option.noConfusion h
    | execed h' hs' =>
      rw [h] at h'
      injection h' with he
      exact absurd (he ▸ hs') hs
    | noParent h' hs' hp' => exact ⟨rfl, rfl⟩
    | step h' hs' hp' hw =>
      rw [h] at h'
      injection h' with he
      rw [← he, hp] at hp'
      exact Option.noConfusion hp'
  | step h hs hp hw ih =>
    intro t2 r2 h2
    cases h2 with
    | notFound h' => rw [h'] at h; exact Option.noConfusion h
    | execed h' hs' =>
      rw [h] at h'
      injection h' with he
      exact absurd (he ▸ hs') hs
    | noParent h' hs' hp' =>
      rw [h] at h'
      injection h' with he
      rw [← he, hp] at hp'
      exact Option.noConfusion hp'
    | step h' hs' hp' hw' =>
      rw [h] at h'
      injection h' with he
      rw [← he, hp] at hp'
      injection hp' with hpp
      rw [← hpp] at hw'
      obtain ⟨ht, hr⟩ := ih hw'
      exact ⟨by rw [ht], hr⟩

theorem ownerWalk_suffix {procs : List (Pid × ProcessState)} :
    ∀ {t : List Pid} {q : Pid} {r : Option Pid}, OwnerWalk procs t q r →
    ∀ (l1 : List Pid) (x : Pid) (l2 : List Pid), t = l1 ++ x :: l2 →
    OwnerWalk procs (x :: l2) x r := by
  intro t q r h
  induction h with
  | notFound h =>
    intro l1 x l2 he
    exact absurd he (by simp)
  | execed h hs =>
    intro l1 x l2 he
    exact absurd he (by simp)
  | noParent h hs hp =>
    intro l1 x l2 he
    exact absurd he (by simp)
  | step h hs hp hw ih =>
    intro l1 x l2 he
    cases l1 with
    | nil =>
      simp only [List.nil_append, List.cons.injEq] at he
      obtain ⟨hx, hl⟩ := he
      subst hx
      subst hl
      exact OwnerWalk.step h hs hp hw
    | cons y l1' =>
      simp only [List.cons_append, List.cons.injEq] at he
      exact ih l1' x l2 he.2

theorem ownerWalk_nodup {procs : List (Pid × ProcessState)} :
    ∀ {t : List Pid} {q : Pid} {r : Option Pid}, OwnerWalk procs t q r →
    t.Nodup := by
  intro t q r h
  induction h with
  | notFound h => exact List.nodup_nil
  | execed h hs => exact List.nodup_nil
  | noParent h hs hp => exact List.nodup_nil
  | step h hs hp hw ih =>
    rename_i pid st p trace rr
    rw [List.nodup_cons]
    refine ⟨?_, ih⟩
    intro hmem
    obtain ⟨l1, l2, hsplit⟩ := List.append_of_mem hmem
    have hsub := ownerWalk_suffix hw l1 _ l2 hsplit
    have hfull := OwnerWalk.step h hs hp hw
    obtain ⟨ht, _⟩ := ownerWalk_det hfull hsub
    have htr : trace = l2 := by
      simpa using ht
    rw [htr] at hsplit
    have hlen : l2.length = l1.length + 1 + l2.length := by
      conv_lhs => rw [hsplit]
      simp
      omega
    omega

theorem alook_mem_keys {β : Type} {l : List (Pid × β)} {k : Pid} {v : β}
    (h : alook l k = some v) : k ∈ l.map Prod.fst := by
  induction l with
  | nil => simp [alook] at h
  | cons kv t ih =>
    obtain ⟨k', v'⟩ := kv
    rw [alook] at h
    by_cases hk : k' = k
    · simp [hk]
    · rw [if_neg hk] at h
      simp [ih h]

theorem ownerWalk_mem {procs : List (Pid × ProcessState)} :
    ∀ {t : List Pid} {q : Pid} {r : Option Pid}, OwnerWalk procs t q r →
    ∀ x ∈ t, x ∈ procs.map Prod.fst := by
  intro t q r h
  induction h with
  | notFound h => simp
  | execed h hs => simp
  | noParent h hs hp => simp
  | step h hs hp hw ih =>
    intro x hx
    rcases List.mem_cons.mp hx with hx | hx
    · subst hx
      exact alook_mem_keys h
    · exact ih x hx

theorem ownerWalk_go {procs : List (Pid × ProcessState)} :
    ∀ {t : List Pid} {q : Pid} {r : Option Pid}, OwnerWalk procs t q r →
    ∀ fuel : Nat, t.length < fuel → findOwnerGo procs fuel q = r := by
  intro t q r h
  induction h with
  | notFound h =>
    intro fuel hf
    match fuel, hf with
    | f + 1, _ => simp [findOwnerGo, h]
  | execed h hs =>
    intro fuel hf
    match fuel, hf with
    | f + 1, _ => simp [findOwnerGo, h, hs]
  | noParent h hs hp =>
    intro fuel hf
    match fuel, hf with
    | f + 1, _ =>
      cases hstat : ‹ProcessState›.status with
      | execed => exact absurd hstat hs
      | forked => simp [findOwnerGo, h, hstat, hp]
      | stopped => simp [findOwnerGo, h, hstat, hp]
  | step h hs hp hw ih =>
    intro fuel hf
    match fuel, hf with
    | f + 1, hf =>
      have hrec := ih f (by simp at hf; omega)
      cases hstat : ‹ProcessState›.status with
      | execed => exact absurd hstat hs
      | forked => simp [findOwnerGo, h, hstat, hp, hrec]
      | stopped => simp [findOwnerGo, h, hstat, hp, hrec]

/-- A terminating ancestor walk is computed exactly by `find_owner_pid`:
the fuel the source supplies cannot run out because a terminating walk
never revisits a pid. -/
theorem ownerWalk_findOwnerPid {procs : List (Pid × ProcessState)}
    {t : List Pid} {q : Pid} {r : Option Pid} (h : OwnerWalk procs t q r) :
    findOwnerPid procs q = r := by
  have hnd := ownerWalk_nodup h
  have hmem := ownerWalk_mem h
  have hlen : t.length ≤ procs.length := by
    have h1 : t.toFinset.card = t.length := List.toFinset_card_of_nodup hnd
    have h2 : t.toFinset ⊆ (procs.map Prod.fst).toFinset := by
      intro x hx
      rw [List.mem_toFinset] at hx ⊢
      exact hmem x hx
    have h3 := Finset.card_le_card h2
    have h4 := (procs.map Prod.fst).toFinset_card_le
    simp only [List.length_map] at h4
    omega
  exact ownerWalk_go h (procs.length + 1) (by omega)

/-- Claim C4: the owner pid recorded when a fork/clone return creates a
process entry is never modified by any later analyzer operation (nor is the
parent pid), and at creation it is the first ancestor with status `Execed`
reached by walking parent links from the forking pid — the result of any
terminating ancestor walk (`OwnerWalk`), or none when no Execed ancestor is
reached. -/
theorem spec_c4_owner_pid_stable :
    (∀ (a : Analyzer) (lines : List Line) (p : Pid) (st : ProcessState),
      alook a.processes p = some st →
      ∃ st', alook (analyzeAll a lines).processes p = some st' ∧
        st'.ownerPid = st.ownerPid ∧ st'.parentPid = st.parentPid) ∧
    (∀ (a : Analyzer) (line : Line)
        (name argsString resultString : Chars) (dur : Int)
        (outcome : SyscallOutcome) (childPid : Pid),
      line.event = .syscall name argsString resultString dur →
      (name = "fork".toList ∨ name = "vfork".toList ∨
        name = "clone".toList ∨ name = "clone3".toList) →
      syscallResult resultString = .ok outcome →
      outcome.returned.bind Value.asI32 = some childPid →
      alook a.processes childPid = none →
      alook (analyze a line).1.processes childPid =
        some ⟨some line.pid, findOwnerPid a.processes line.pid, .forked⟩) ∧
    (∀ (procs : List (Pid × ProcessState)) (t : List Pid) (q : Pid)
        (r : Option Pid), OwnerWalk procs t q r → findOwnerPid procs q = r) := by
  refine ⟨?_, ?_, ?_⟩
  · intro a lines p st h
    obtain ⟨st', h', hp, ho⟩ := analyzeAll_preserves lines a p st h
    exact ⟨st', h', ho, hp⟩
  · intro a line name argsString resultString dur outcome childPid hev hname
      ho hsome hnew
    have hak : analyzeKind a line = .ok (handleFork a line childPid) := by
      simp only [analyzeKind, hev]
      rw [if_pos hname, ho]
      simp only [hsome]
    have hhf : (handleFork a line childPid).2.processes =
        (childPid, ⟨some line.pid, findOwnerPid a.processes line.pid, .forked⟩)
          :: a.processes := by
      simp only [handleFork, hnew]
    rw [analyze, hak]
    simp only [hhf, alook]
    simp
  · intro procs t q r h
    exact ownerWalk_findOwnerPid h

/-- Witness for the C4 theorem: preservation over an exit line, creation on
a clone return, and the walk characterization over a one-entry table whose
only process is Execed. -/
theorem spec_c4_owner_pid_stable_witness :
    (∃ st', alook (analyzeAll ⟨[(5, ⟨none, some 3, .forked⟩)]⟩
        [⟨5, 0, .exited "0".toList, []⟩]).processes 5 = some st' ∧
      st'.ownerPid = some 3 ∧ st'.parentPid = none) ∧
    alook (analyze ⟨[(10, ⟨none, none, .execed⟩)]⟩
        ⟨10, 0, .syscall "clone".toList "x".toList "11".toList 0, []⟩).1.processes
        11 =
      some ⟨some 10,
        findOwnerPid [(10, ⟨none, none, .execed⟩)] 10, .forked⟩ ∧
    findOwnerPid [(10, ⟨none, none, .execed⟩)] 10 = some 10 := by
  refine ⟨?_, ?_, ?_⟩
  · exact spec_c4_owner_pid_stable.1 ⟨[(5, ⟨none, some 3, .forked⟩)]⟩
      [⟨5, 0, .exited "0".toList, []⟩] 5 ⟨none, some 3, .forked⟩ rfl
  · exact spec_c4_owner_pid_stable.2.1 ⟨[(10, ⟨none, none, .execed⟩)]⟩
      ⟨10, 0, .syscall "clone".toList "x".toList "11".toList 0, []⟩
      "clone".toList "x".toList "11".toList 0
      ⟨some (.expression "11".toList), []⟩ 11 rfl
      (Or.inr (Or.inr (Or.inl rfl))) rfl rfl rfl
  · exact spec_c4_owner_pid_stable.2.2 [(10, ⟨none, none, .execed⟩)] [] 10
      (some 10) (OwnerWalk.execed rfl rfl)

theorem btInsert_mem {β : Type} {k : Int} {v : β} :
    ∀ {m : List (Int × β)} {y : Int × β},
    y ∈ btInsert k v m → y = (k, v) ∨ y ∈ m := by
  intro m
  induction m with
  | nil =>
    intro y hy
    simp [btInsert] at hy
    exact Or.inl hy
  | cons hd t ih =>
    intro y hy
    obtain ⟨k', v'⟩ := hd
    rw [btInsert] at hy
    split_ifs at hy with h1 h2
    · rcases List.mem_cons.mp hy with hy | hy
      · exact Or.inl hy
      · exact Or.inr hy
    · rcases List.mem_cons.mp hy with hy | hy
      · exact Or.inl hy
      · exact Or.inr (List.mem_cons_of_mem _ hy)
    · rcases List.mem_cons.mp hy with hy | hy
      · exact Or.inr (by simp [hy])
      · rcases ih hy with hy | hy
        · exact Or.inl hy
        · exact Or.inr (List.mem_cons_of_mem _ hy)

theorem btInsert_sorted {β : Type} (k : Int) (v : β) :
    ∀ m : List (Int × β), m.Pairwise (fun x y => x.1 < y.1) →
    (btInsert k v m).Pairwise (fun x y => x.1 < y.1) := by
  intro m
  induction m with
  | nil =>
    intro _
    simp [btInsert]
  | cons hd t ih =>
    intro hp
    obtain ⟨k', v'⟩ := hd
    rw [List.pairwise_cons] at hp
    obtain ⟨hall, ht⟩ := hp
    rw [btInsert]
    by_cases h1 : k < k'
    · rw [if_pos h1]
      rw [List.pairwise_cons]
      constructor
      · intro y hy
        rcases List.mem_cons.mp hy with hy | hy
        · subst hy
          exact h1
        · exact lt_trans h1 (hall y hy)
      · rw [List.pairwise_cons]
        exact ⟨hall, ht⟩
    · rw [if_neg h1]
      by_cases h2 : k = k'
      · rw [if_pos h2]
        rw [List.pairwise_cons]
        exact ⟨fun y hy => h2 ▸ hall y hy, ht⟩
      · rw [if_neg h2]
        rw [List.pairwise_cons]
        constructor
        · intro y hy
          rcases btInsert_mem hy with hy | hy
          · subst hy
            show k' < k
            omega
          · exact hall y hy
        · exact ih ht

theorem btInsert_keys_fresh {β : Type} {k : Int} (v : β) :
    ∀ {m : List (Int × β)}, k ∉ m.map Prod.fst →
    ((btInsert k v m).map Prod.fst).Perm (k :: m.map Prod.fst) := by
  intro m
  induction m with
  | nil =>
    intro _
    simp [btInsert]
  | cons hd t ih =>
    intro hk
    obtain ⟨k', v'⟩ := hd
    rw [btInsert]
    by_cases h1 : k < k'
    · rw [if_pos h1]
      simp
    · have h2 : ¬ k = k' := by
        intro h
        exact hk (by simp [h])
      rw [if_neg h1, if_neg h2]
      simp only [List.map_cons]
      have hrec := ih (fun h => hk (by simp [h]))
      exact List.Perm.trans (hrec.cons k') (List.Perm.swap k k' _)

theorem btInsert_len_le {β : Type} (k : Int) (v : β) :
    ∀ m : List (Int × β), (btInsert k v m).length ≤ m.length + 1 := by
  intro m
  induction m with
  | nil => simp [btInsert]
  | cons hd t ih =>
    obtain ⟨k', v'⟩ := hd
    rw [btInsert]
    split_ifs with h1 h2
    · simp
    · simp
    · simp only [List.length_cons]
      omega

theorem btInsert_replace {β : Type} (k : Int) (v : β) :
    ∀ m : List (Int × β), m.Pairwise (fun x y => x.1 < y.1) →
    k ∈ m.map Prod.fst →
    (btInsert k v m).length = m.length ∧
    alook (btInsert k v m) k = some v ∧
    (∀ v', (k, v') ∈ btInsert k v m → v' = v) := by
  intro m
  induction m with
  | nil =>
    intro _ hk
    simp at hk
  | cons hd t ih =>
    intro hp hk
    obtain ⟨k', v'⟩ := hd
    rw [List.pairwise_cons] at hp
    obtain ⟨hall, ht⟩ := hp
    by_cases h2 : k = k'
    · subst h2
      have hbt : btInsert k v ((k, v') :: t) = (k, v) :: t := by
        rw [btInsert]
        rw [if_neg (by omega), if_pos rfl]
      rw [hbt]
      refine ⟨by simp, by simp [alook], ?_⟩
      intro v'' hv
      rcases List.mem_cons.mp hv with hv | hv
      · exact congrArg Prod.snd hv
      · have h3 : k < k := hall _ hv
        exact absurd h3 (lt_irrefl k)
    · rw [List.map_cons, List.mem_cons] at hk
      have hkt : k ∈ t.map Prod.fst := by
        rcases hk with hx | hx
        · exact absurd hx h2
        · exact hx
      have h1 : ¬ k < k' := by
        obtain ⟨y, hy, hyk⟩ := List.mem_map.mp hkt
        have h4 : k' < y.1 := hall y hy
        omega
      have hbt : btInsert k v ((k', v') :: t) = (k', v') :: btInsert k v t := by
        rw [btInsert, if_neg h1, if_neg h2]
      rw [hbt]
      obtain ⟨hl, ha, hm⟩ := ih ht hkt
      refine ⟨by simp [hl], ?_, ?_⟩
      · rw [alook]
        rw [if_neg (fun h => h2 h.symm)]
        exact ha
      · intro v'' hv
        rcases List.mem_cons.mp hv with hv | hv
        · exact absurd (congrArg Prod.fst hv) (by simpa using h2)
        · exact hm v'' hv

theorem drainOver_id (em : Analyzer) (m : List (Int × WEntry))
    (h : m.length ≤ WINDOW_SIZE) : drainOver em m = (em, m, [], []) := by
  rw [drainOver.eq_def]
  rw [if_neg (by omega)]

theorem finalDrain_entries (em : Analyzer) :
    ∀ m : List (Int × WEntry), (finalDrain em m).2.1 = m := by
  intro m
  induction m generalizing em with
  | nil => rfl
  | cons hd t ih =>
    obtain ⟨ts, e⟩ := hd
    simp only [finalDrain]
    rw [ih]

theorem drainOver_pop (em : Analyzer) (ts : Int) (e : WEntry)
    (tl : List (Int × WEntry)) (hgt : ((ts, e) :: tl).length > WINDOW_SIZE)
    (htl : tl.length ≤ WINDOW_SIZE) :
    drainOver em ((ts, e) :: tl)
      = ((analyzeEntry em e).1, tl, [(ts, e)], (analyzeEntry em e).2) := by
  rw [drainOver.eq_def, if_pos hgt]
  show ((drainOver (analyzeEntry em e).1 tl).1,
      (drainOver (analyzeEntry em e).1 tl).2.1,
      (ts, e) :: (drainOver (analyzeEntry em e).1 tl).2.2.1,
      (analyzeEntry em e).2 ++ (drainOver (analyzeEntry em e).1 tl).2.2.2)
    = ((analyzeEntry em e).1, tl, [(ts, e)], (analyzeEntry em e).2)
  rw [drainOver_id _ tl htl]
  simp

/-- Timestamps of the successfully scanned lines, in input order (the
lines the `Ok(strace)` arm of the loop in `src/main.rs` inserts into the
window). -/
def scannedTs (lines : List Chars) : List Int :=
  lines.filterMap (fun l => ((parseLine l).toOption).map Line.timestamp)

/-- As `scannedTs`, over already-enumerated lines. -/
def tsOfI (items : List (Nat × Chars)) : List Int :=
  items.filterMap (fun il => ((parseLine il.2).toOption).map Line.timestamp)

theorem filterMap_enumFrom {α β : Type} (f : α → Option β) :
    ∀ (xs : List α) (n : Nat),
    (List.enumFrom n xs).filterMap (fun p => f p.2) = xs.filterMap f := by
  intro xs
  induction xs with
  | nil =>
    intro n
    rfl
  | cons x t ih =>
    intro n
    cases hfx : f x with
    | none =>
      simp only [List.enumFrom, List.filterMap_cons, hfx]
      exact ih (n + 1)
    | some b =>
      simp only [List.enumFrom, List.filterMap_cons, hfx]
      rw [ih (n + 1)]

theorem tsOfI_enum (lines : List Chars) : tsOfI lines.enum = scannedTs lines :=
  filterMap_enumFrom
    (fun l => ((parseLine l).toOption).map Line.timestamp) lines 0

theorem pipeRun_small :
    ∀ (items : List (Nat × Chars)) (s : PipeState),
    s.queued.Pairwise (fun x y => x.1 < y.1) →
    ((s.queued.map Prod.fst) ++ tsOfI items).Nodup →
    s.queued.length + (tsOfI items).length ≤ WINDOW_SIZE →
    (pipeRun s items).2.1 = [] ∧ (pipeRun s items).2.2 = [] ∧
    (pipeRun s items).1.emitter = s.emitter ∧
    (pipeRun s items).1.queued.Pairwise (fun x y => x.1 < y.1) ∧
    ((pipeRun s items).1.queued.map Prod.fst).Perm
      (s.queued.map Prod.fst ++ tsOfI items) := by
  intro items
  induction items with
  | nil =>
    intro s h1 h2 h3
    refine ⟨rfl, rfl, rfl, h1, ?_⟩
    show ((s.queued.map Prod.fst)).Perm (s.queued.map Prod.fst ++ tsOfI [])
    have hnil : tsOfI ([] : List (Nat × Chars)) = [] := rfl
    rw [hnil, List.append_nil]
  | cons il rest ih =>
    intro s h1 h2 h3
    obtain ⟨i, l⟩ := il
    cases hp : parseLine l with
    | error err =>
      have hts : tsOfI ((i, l) :: rest) = tsOfI rest := by
        simp [tsOfI, List.filterMap_cons, hp, Except.toOption]
      rw [hts] at h2 h3 ⊢
      have hr := ih s h1 h2 h3
      have hstep : pipeStep s i l = (s, [], []) := by
        simp only [pipeStep, hp]
      simp only [pipeRun, hstep, List.nil_append]
      exact hr
    | ok strace =>
      have hts : tsOfI ((i, l) :: rest) = strace.timestamp :: tsOfI rest := by
        simp [tsOfI, List.filterMap_cons, hp, Except.toOption]
      rw [hts] at h2 h3 ⊢
      have h2c : (strace.timestamp ::
          (s.queued.map Prod.fst ++ tsOfI rest)).Nodup :=
        List.perm_middle.nodup h2
      rw [List.nodup_cons] at h2c
      obtain ⟨hfreshBoth, h2rest⟩ := h2c
      have hfresh : strace.timestamp ∉ s.queued.map Prod.fst := by
        intro hmem
        exact hfreshBoth (List.mem_append.mpr (Or.inl hmem))
      have hqperm : ((btInsert strace.timestamp ⟨i, l, strace⟩
          s.queued).map Prod.fst).Perm
          (strace.timestamp :: s.queued.map Prod.fst) :=
        btInsert_keys_fresh _ hfresh
      have hqlen : (btInsert strace.timestamp ⟨i, l, strace⟩
          s.queued).length = s.queued.length + 1 := by
        have hpl := hqperm.length_eq
        simp only [List.length_map, List.length_cons] at hpl
        omega
      have hqsort := btInsert_sorted strace.timestamp
        (⟨i, l, strace⟩ : WEntry) s.queued h1
      rw [List.length_cons] at h3
      have hqle : (btInsert strace.timestamp ⟨i, l, strace⟩
          s.queued).length ≤ WINDOW_SIZE := by
        omega
      have hstep : pipeStep s i l =
          (⟨s.emitter, btInsert strace.timestamp ⟨i, l, strace⟩ s.queued⟩,
            [], []) := by
        simp only [pipeStep, hp]
        rw [drainOver_id _ _ hqle]
      have hperm1 : ((btInsert strace.timestamp ⟨i, l, strace⟩
          s.queued).map Prod.fst ++ tsOfI rest).Perm
          (strace.timestamp :: (s.queued.map Prod.fst ++ tsOfI rest)) := by
        have hap := hqperm.append_right (tsOfI rest)
        simpa using hap
      have h2rec : ((btInsert strace.timestamp ⟨i, l, strace⟩
          s.queued).map Prod.fst ++ tsOfI rest).Nodup :=
        (hperm1.symm).nodup (List.nodup_cons.mpr ⟨hfreshBoth, h2rest⟩)
      have h3rec : (btInsert strace.timestamp ⟨i, l, strace⟩
          s.queued).length + (tsOfI rest).length ≤ WINDOW_SIZE := by
        omega
      have hr := ih ⟨s.emitter, btInsert strace.timestamp ⟨i, l, strace⟩
        s.queued⟩ hqsort h2rec h3rec
      obtain ⟨hr1, hr2, hr3, hr4, hr5⟩ := hr
      simp only [pipeRun, hstep, List.nil_append]
      refine ⟨hr1, hr2, hr3, hr4, ?_⟩
      exact hr5.trans (hperm1.trans List.perm_middle.symm)

/-- C2 (amended: the multiset claim holds only when the scanned
timestamps are pairwise distinct, since `BTreeMap::insert` silently
replaces an entry with an equal key): for every input whose successfully
scanned lines have at most `WINDOW_SIZE` pairwise-distinct timestamps,
nothing is released during streaming and the released sequence is exactly
the scanned timestamps in ascending order; on a push that grows the
window beyond `WINDOW_SIZE` entries, the window releases exactly its
minimum-timestamp entry and keeps the rest; and the end-of-input drain
releases the remaining window in ascending key order. -/
theorem spec_c2_reorder_window :
    (∀ lines : List Chars,
      (scannedTs lines).Nodup →
      (scannedTs lines).length ≤ WINDOW_SIZE →
      (pipeRun (⟨⟨[]⟩, []⟩ : PipeState) lines.enum).2.1 = [] ∧
      ((runPipeline lines).2.1.map Prod.fst).Perm (scannedTs lines) ∧
      ((runPipeline lines).2.1.map Prod.fst).Pairwise (fun a b => a < b)) ∧
    (∀ (em : Analyzer) (m : List (Int × WEntry)) (k : Int) (v : WEntry),
      m.Pairwise (fun x y => x.1 < y.1) → m.length ≤ WINDOW_SIZE →
      (btInsert k v m).length > WINDOW_SIZE →
      ∃ hd tl, btInsert k v m = hd :: tl ∧
        (drainOver em (btInsert k v m)).2.2.1 = [hd] ∧
        (drainOver em (btInsert k v m)).2.1 = tl ∧
        ∀ x ∈ btInsert k v m, hd.1 ≤ x.1) ∧
    (∀ (em : Analyzer) (m : List (Int × WEntry)),
      m.Pairwise (fun x y => x.1 < y.1) →
      (finalDrain em m).2.1 = m ∧
      ((finalDrain em m).2.1.map Prod.fst).Pairwise (fun a b => a < b)) := by
  refine ⟨?_, ?_, ?_⟩
  · intro lines hnd hlen
    have hbridge : tsOfI lines.enum = scannedTs lines := tsOfI_enum lines
    have h := pipeRun_small lines.enum ⟨⟨[]⟩, []⟩ (by exact List.Pairwise.nil)
      (by simpa [hbridge] using hnd) (by simpa [hbridge] using hlen)
    obtain ⟨h1, h2, h3, h4, h5⟩ := h
    have hrp : (runPipeline lines).2.1
        = (pipeRun (⟨⟨[]⟩, []⟩ : PipeState) lines.enum).1.queued := by
      simp only [runPipeline]
      rw [h1, finalDrain_entries, List.nil_append]
    refine ⟨h1, ?_, ?_⟩
    · rw [hrp]
      simpa [hbridge] using h5
    · rw [hrp]
      exact List.pairwise_map.mpr h4
  · intro em m k v hs hle hgt
    have hsq := btInsert_sorted k v m hs
    have hlel := btInsert_len_le k v m
    cases hbt : btInsert k v m with
    | nil =>
      rw [hbt] at hgt
      simp at hgt
    | cons hd tl =>
      obtain ⟨ts, e⟩ := hd
      rw [hbt] at hgt hsq hlel
      have htl : tl.length ≤ WINDOW_SIZE := by
        simp only [List.length_cons] at hlel hgt
        omega
      have hpop := drainOver_pop em ts e tl hgt htl
      refine ⟨(ts, e), tl, rfl, ?_, ?_, ?_⟩
      · rw [hpop]
      · rw [hpop]
      · intro x hx
        rw [List.pairwise_cons] at hsq
        rcases List.mem_cons.mp hx with hx | hx
        · rw [hx]
        · exact le_of_lt (hsq.1 x hx)
  · intro em m hs
    refine ⟨finalDrain_entries em m, ?_⟩
    rw [finalDrain_entries em m]
    exact List.pairwise_map.mpr hs

/-- Two syscall lines carrying the same timestamp (5 s): the window
buffers at most one of them. -/
def c2Lines : List Chars :=
  ["1 5.0 a() = 0 <0>".toList, "2 5.0 b() = 0 <0>".toList]

/-- C2 counterexample: an input of two successfully scanned lines (well
under the window size) with equal timestamps releases only one entry, so
the released timestamps are not a permutation of the scanned ones — the
claimed multiset equality fails for duplicate timestamps. -/
theorem spec_c2_counterexample :
    c2Lines.length ≤ WINDOW_SIZE ∧
    scannedTs c2Lines = [5000000000, 5000000000] ∧
    (runPipeline c2Lines).2.1.map Prod.fst = [5000000000] ∧
    ¬ ((runPipeline c2Lines).2.1.map Prod.fst).Perm (scannedTs c2Lines) := by
  refine ⟨by decide, rfl, rfl, ?_⟩
  intro hperm
  have hl := hperm.length_eq
  have e1 : ((runPipeline c2Lines).2.1.map Prod.fst).length = 1 := rfl
  have e2 : (scannedTs c2Lines).length = 2 := rfl
  omega

/-- Two syscall lines with distinct timestamps arriving out of order. -/
def c2wLines : List Chars :=
  ["1 5.5 a() = 0 <0>".toList, "2 4.5 b() = 0 <0>".toList]

theorem spec_c2_reorder_window_witness :
    (scannedTs c2wLines).Nodup ∧ (scannedTs c2wLines).length ≤ WINDOW_SIZE ∧
    ((pipeRun (⟨⟨[]⟩, []⟩ : PipeState) c2wLines.enum).2.1 = [] ∧
      ((runPipeline c2wLines).2.1.map Prod.fst).Perm (scannedTs c2wLines) ∧
      ((runPipeline c2wLines).2.1.map Prod.fst).Pairwise
        (fun a b => a < b)) := by
  refine ⟨by decide, by decide, ?_⟩
  exact spec_c2_reorder_window.1 c2wLines (by decide) (by decide)

/-- Two scanned syscall lines carrying the same 5 s timestamp. -/
def c10Lines : List Chars :=
  ["1 5.0 a() = 0 <0>".toList, "2 5.0 b() = 0 <0>".toList]

/-- C10: inserting a scanned line whose timestamp equals a buffered key
replaces the buffered entry — the map keeps its size, looking the key up
yields the new entry, and no entry with that key other than the new one
survives; concretely, of two lines sharing a timestamp only the second
(pid 2) is ever analyzed and delivered, so fewer events than input lines
are emitted. -/
theorem spec_c10_duplicate_timestamp :
    (∀ (m : List (Int × WEntry)) (k : Int) (v : WEntry),
      m.Pairwise (fun x y => x.1 < y.1) → k ∈ m.map Prod.fst →
      (btInsert k v m).length = m.length ∧
      alook (btInsert k v m) k = some v ∧
      ∀ v', (k, v') ∈ btInsert k v m → v' = v) ∧
    ((runPipeline c10Lines).2.2.map Event.pid = [2] ∧
      c10Lines.length = 2 ∧
      (runPipeline c10Lines).2.2.length < c10Lines.length) := by
  refine ⟨fun m k v hs hk => btInsert_replace k v m hs hk, rfl, rfl, ?_⟩
  have h1 : (runPipeline c10Lines).2.2.length = 1 := rfl
  have h2 : c10Lines.length = 2 := rfl
  omega

/-- A buffered window entry for the witness below. -/
def c10Entry : WEntry := ⟨0, [], ⟨1, 5, .exited "0".toList, []⟩⟩

/-- A second window entry, sharing no field with `c10Entry`. -/
def c10EntryB : WEntry := ⟨1, [], ⟨2, 5, .exited "1".toList, []⟩⟩

theorem spec_c10_duplicate_timestamp_witness :
    ([((5 : Int), c10Entry)].Pairwise (fun x y => x.1 < y.1) ∧
      (5 : Int) ∈ [((5 : Int), c10Entry)].map Prod.fst) ∧
    ((btInsert 5 c10EntryB [((5 : Int), c10Entry)]).length
        = [((5 : Int), c10Entry)].length ∧
      alook (btInsert 5 c10EntryB [((5 : Int), c10Entry)]) 5
        = some c10EntryB ∧
      ∀ v', ((5 : Int), v') ∈ btInsert 5 c10EntryB [((5 : Int), c10Entry)] →
        v' = c10EntryB) := by
  refine ⟨⟨by simp, by simp⟩, ?_⟩
  exact spec_c10_duplicate_timestamp.1 [((5 : Int), c10Entry)] 5 c10EntryB
    (by simp) (by simp)

/-- C5 (amended: the remote-span sink indeed makes no span change when
the stopped pid has no live span, but the flame-chart sink always pushes
a slice-end packet on a stop event, `did_exec` notwithstanding): an
exited line for a pid whose tracked status is not `Execed` yields a Stop
event with `did_exec = false`; the remote-span sink leaves its span map
unchanged and performs no action on a stop for a pid with no live span
(logger disabled); and the flame-chart sink ends every stop event's
packet list with a slice end. -/
theorem spec_c5_stop_did_exec :
    (∀ (a : Analyzer) (line : Line) (code : Chars),
      line.event = .exited code →
      (∀ st, alook a.processes line.pid = some st →
        st.status ≠ .execed) →
      ∀ ev, (analyze a line).2 = .ok ev →
      ∃ r, ev.kind = .stopProcess ⟨r, false⟩) ∧
    (∀ (o : OtelOutput) (event : Event) (se : StopProcessEvent),
      event.kind = .stopProcess se →
      alook o.processSpans event.pid = none →
      o.hasLogger = false →
      (otelOutputEvent o event).1.processSpans = o.processSpans ∧
      (otelOutputEvent o event).2 = []) ∧
    (∀ (o : PerfettoOutput) (event : Event) (se : StopProcessEvent),
      event.kind = .stopProcess se →
      ∃ u, (perfettoOutputEvent o event).2.getLast? =
        some ⟨some event.timestamp, .sliceEnd u⟩) := by
  refine ⟨?_, ?_, ?_⟩
  · intro a line code hev hst ev hok
    simp only [analyze, analyzeKind, hev] at hok
    cases hc : exitedCode code with
    | error e =>
      simp only [hc] at hok
      exact Except.noConfusion hok
    | ok c =>
      simp only [hc, handleStopped] at hok
      cases halk : alook a.processes line.pid with
      | some st =>
        simp only [halk, hst st halk, decide_False] at hok
        injection hok with h
        subst h
        exact ⟨.exited c.asI32, rfl⟩
      | none =>
        simp only [halk] at hok
        have hdx : decide
            (ProcessStatus.stopped = ProcessStatus.execed) = false := rfl
        simp only [hdx] at hok
        injection hok with h
        subst h
        exact ⟨.exited c.asI32, rfl⟩
  · intro o event se hk halk hlog
    refine ⟨?_, ?_⟩ <;> simp [otelOutputEvent, hk, halk, hlog]
  · intro o event se hk
    cases halk : alook o.trackUuidsByPid event.pid with
    | some u =>
      refine ⟨u, ?_⟩
      simp [perfettoOutputEvent, hk, halk, List.getLast?_concat]
    | none =>
      refine ⟨o.nextUuid, ?_⟩
      simp [perfettoOutputEvent, hk, halk, List.getLast?_concat]

/-- A stopped line for pid 7, two seconds in. -/
def c5Line : Line := ⟨7, 2000000000, .exited "0".toList, []⟩

/-- The Stop event the analyzer produces for `c5Line` on an empty table:
pid 7 was never exec'd, so `didExec` is `false`. -/
def c5Event : Event :=
  ⟨2000000000, 7, none, none, c5Line, .stopProcess ⟨.exited (some 0), false⟩⟩

/-- A fresh flame-chart sink with logging off. -/
def c5Sink : PerfettoOutput := ⟨⟨false⟩, [], 0, none, 0⟩

/-- A fresh remote-span sink with no logger. -/
def c5Otel : OtelOutput := ⟨⟨none⟩, false, none, [], none, none, 0⟩

/-- C5 counterexample: a Stop event with `did_exec = false` for a pid the
flame-chart sink has never seen still produces a slice-end packet — the
sink does not surface the event as a log-only change. -/
theorem spec_c5_counterexample :
    c5Event.kind = .stopProcess ⟨.exited (some 0), false⟩ ∧
    (analyze ⟨[]⟩ c5Line).2 = .ok c5Event ∧
    (perfettoOutputEvent c5Sink c5Event).2 =
      [⟨some 2000000000, .sliceEnd 0⟩] ∧
    (perfettoOutputEvent c5Sink c5Event).2 ≠ [] := by
  refine ⟨rfl, rfl, rfl, ?_⟩
  intro h
  exact List.cons_ne_nil _ _ h

theorem spec_c5_stop_did_exec_witness :
    (c5Line.event = .exited "0".toList ∧
      (analyze (⟨[]⟩ : Analyzer) c5Line).2 = .ok c5Event ∧
      ∃ r, c5Event.kind = .stopProcess ⟨r, false⟩) ∧
    (alook c5Otel.processSpans c5Event.pid = none ∧
      c5Otel.hasLogger = false ∧
      (otelOutputEvent c5Otel c5Event).1.processSpans =
        c5Otel.processSpans ∧
      (otelOutputEvent c5Otel c5Event).2 = []) ∧
    (∃ u, (perfettoOutputEvent c5Sink c5Event).2.getLast? =
      some ⟨some c5Event.timestamp, .sliceEnd u⟩) := by
  refine ⟨⟨rfl, rfl, ?_⟩, ⟨rfl, rfl, ?_, ?_⟩, ?_⟩
  · exact spec_c5_stop_did_exec.1 ⟨[]⟩ c5Line "0".toList rfl
      (fun st h => by simp [alook] at h) c5Event rfl
  · exact (spec_c5_stop_did_exec.2.1 c5Otel c5Event
      ⟨.exited (some 0), false⟩ rfl rfl rfl).1
  · exact (spec_c5_stop_did_exec.2.1 c5Otel c5Event
      ⟨.exited (some 0), false⟩ rfl rfl rfl).2
  · exact spec_c5_stop_did_exec.2.2 c5Sink c5Event
      ⟨.exited (some 0), false⟩ rfl

end Systrument
